import Mathlib

/-!
Verification development for a Sphinx-docstring checker
(`sphinx_content.py`).

The program is embedded shallowly:

* documentation strings are `List Char`;
* each regular-expression search of the source is translated into an
  executable scanning function that reproduces Python `re` semantics
  (leftmost match, alternatives tried in order, greedy quantifiers with
  backtracking, `.` not matching a newline, `$` in multiline mode
  matching at end of text and directly before a newline, `\s` the
  whitespace class, findall returning non-overlapping matches);
* the `ast` layer is a tree of nodes; `ast.walk` is breadth-first;
* `None`-returning paths are `Option`.

Whitespace is modelled as the ASCII part of Python's `\s` / `str.strip`
class, which is the relevant fragment for docstring text.
-/

namespace SphinxContent

/-- Documentation text, a Python `str`, as a list of characters. -/
abbrev Str := List Char

/-- Coerce a Lean string literal to the `List Char` representation. -/
def str (s : String) : Str := s.data

/-- ASCII whitespace, the relevant fragment of Python's `\s` class and
of the set stripped by `str.strip()`. -/
def isWS (c : Char) : Bool :=
  c = ' ' || c = '\t' || c = '\n' || c = '\r' || c = '\x0b' || c = '\x0c'

/-- Python `str.strip()`: remove leading and trailing whitespace. -/
def pyStrip (s : Str) : Str :=
  ((s.dropWhile isWS).reverse.dropWhile isWS).reverse

/-- Remove trailing whitespace only (used to locate the end of a
`PAT\s*$` match inside one line). -/
def rstripWS (s : Str) : Str :=
  (s.reverse.dropWhile isWS).reverse

/-- The current line of a suffix of the text: characters up to the next
newline.  `.` in a Python regex can only match inside this segment. -/
def lineTail (s : Str) : Str := s.takeWhile (· ≠ '\n')

/-- Split a text into its lines (`n` newlines give `n + 1` lines). -/
def splitLines : Str → List Str
  | [] => [[]]
  | c :: cs =>
    if c = '\n' then [] :: splitLines cs
    else
      match splitLines cs with
      | [] => [[c]]
      | ℓ :: ls => (c :: ℓ) :: ls

/-- Rejoin lines with newlines; the left inverse of `splitLines`. -/
def joinLines : List Str → Str
  | [] => []
  | [ℓ] => ℓ
  | ℓ :: ls => ℓ ++ '\n' :: joinLines ls

/-- Prepend a newline to every line and concatenate: the text occupied
by a block of continuation lines. -/
def glueNL (ls : List Str) : Str := (ls.map (fun ℓ => '\n' :: ℓ)).flatten

/-! ### The field pattern table

`ParseFunctionDef.regexes` maps each Sphinx field tag to a pattern:

* `param`  : `:param .*:`
* `type`   : `:type \S+:`
* `meta`   : `:meta \S+:`
* `raises` : `:raises .*:`
* `returns`: `:returns:`
* `rtype`  : `:rtype:`
* `yield`  : `:yield:`

Each pattern is a literal head followed (for the first four) by an
argument part ending in `:`.  The embedding keeps the table as the
list of tags together with, for each tag, an executable test for the
three ways the source uses a pattern: anchored `re.match` on a line,
as the line-opening part of the `check_newlines` scan, and in the
`PAT\s*$` form of `check_empty_fields`. -/

inductive Tag where
  | param | type | meta | raises | returns | rtype | yield
deriving DecidableEq, Repr

/-- Insertion order of the `regexes` dict. -/
def tagOrder : List Tag :=
  [.param, .type, .meta, .raises, .returns, .rtype, .yield]

/-- Literal head of each pattern (everything before `.*` / `\S+` /
end of pattern). -/
def tagLit : Tag → Str
  | .param => str ":param "
  | .type => str ":type "
  | .meta => str ":meta "
  | .raises => str ":raises "
  | .returns => str ":returns:"
  | .rtype => str ":rtype:"
  | .yield => str ":yield:"

/-- Does `.*:` match some prefix of the (newline-free) remainder `u`?
Holds exactly when `u` contains a colon. -/
def anyColon (u : Str) : Bool := u.contains ':'

/-- Does `\S+:` match some prefix of the remainder `u`?  Holds exactly
when a colon occurs after at least one non-whitespace character and
before any whitespace, i.e. inside the tail of the leading
non-whitespace run. -/
def tokColon (u : Str) : Bool :=
  match u.takeWhile (fun c => ¬ isWS c) with
  | [] => false
  | _ :: v => v.contains ':'

/-- `re.match(regexes[tag], line)` is truthy: the pattern matches a
prefix of `line`.  This is how the repository's own tests exercise the
table, and how `check_newlines` recognises the line after a newline. -/
def reMatch (t : Tag) (line : Str) : Bool :=
  (tagLit t).isPrefixOf line &&
    match t with
    | .param => anyColon (line.drop 7)
    | .type => tokColon (line.drop 6)
    | .meta => tokColon (line.drop 6)
    | .raises => anyColon (line.drop 8)
    | .returns => true
    | .rtype => true
    | .yield => true

/-- Does `.*\s*$`-free pattern `PAT` of some tag match a prefix of the
line?  Used by `check_newlines`: the combined pattern
`.*\n(?:PAT₁.*|…|PAT₇.*)` requires one of the table's patterns to match
directly after the newline. -/
def opensField (s : Str) : Bool :=
  tagOrder.any (fun t => reMatch t (lineTail s))

/-- Does the `PAT\s*$` form of tag `t` succeed on the (newline-free)
remainder `u` after the literal head?
For `param`/`raises` the pattern continues with `.*:\s*$`:
after removing trailing whitespace the remainder must end in a colon.
For `type`/`meta` it is `\S+:\s*$`: additionally everything before
that colon must be one or more non-whitespace characters.  For the
bare tags it is `\s*$`: the remainder must be all whitespace. -/
def emptyRest : Tag → Str → Bool
  | .param, u => (rstripWS u).getLast? = some ':'
  | .raises, u => (rstripWS u).getLast? = some ':'
  | .type, u =>
    (rstripWS u).getLast? = some ':' &&
      (rstripWS u).dropLast ≠ [] && (rstripWS u).dropLast.all (fun c => ¬ isWS c)
  | .meta, u =>
    (rstripWS u).getLast? = some ':' &&
      (rstripWS u).dropLast ≠ [] && (rstripWS u).dropLast.all (fun c => ¬ isWS c)
  | .returns, u => u.all isWS
  | .rtype, u => u.all isWS
  | .yield, u => u.all isWS

/-- One alternative `PAT\s*$` of the `check_empty_fields` pattern
matches at the start of the line suffix `ℓ` (the `\s*$` part may
continue past the end of the line; `efMatchLen` computes how far). -/
def efCoreOk (ℓ : Str) : Bool :=
  tagOrder.any (fun t => (tagLit t).isPrefixOf ℓ && emptyRest t (ℓ.drop (tagLit t).length))

/-- Index (0-based) of the last newline of `w`; meaningful when `w`
contains a newline. -/
def lastNLIdx (w : Str) : Nat :=
  w.length - 1 - (w.reverse.takeWhile (· ≠ '\n')).length

/-- Length of the `check_empty_fields` match starting at suffix `s`
(assuming `efCoreOk (lineTail s)`).  The greedy `\s*` runs over the
maximal whitespace run after the line; `$` then backtracks to the end
of the text, or to just before the last newline of that run. -/
def efMatchLen (s : Str) : Nat :=
  let ℓ := lineTail s
  let rest := s.drop ℓ.length
  let w := rest.takeWhile isWS
  if w.length = rest.length then s.length else ℓ.length + lastNLIdx w

/-- One attempt of the `check_empty_fields` scan at the current
position: the alternatives `PAT\s*$` each anchor at this position; on
success the match extends over `efMatchLen` characters. -/
def efTry (s : Str) : Option Nat :=
  if efCoreOk (lineTail s) then some (efMatchLen s) else none

/-- The scan loop of `re.findall`: try a match at every position left
to right, emit non-overlapping matches, resume after the end of each
match.  `f s` decides whether a match starts at suffix `s` and, if so,
how many characters it spans; `skip` counts positions still covered by
the previous match.  Every `f` used below returns a positive length. -/
def reScan (f : Str → Option Nat) : Nat → Str → List Str
  | _ + 1, [] => []
  | skip + 1, _ :: cs => reScan f skip cs
  | 0, [] => []
  | 0, c :: cs =>
    match f (c :: cs) with
    | some n => (c :: cs).take n :: reScan f (n - 1) cs
    | none => reScan f 0 cs

/-- `re.findall` of the combined `PAT\s*$` pattern over the text
(the scan of `check_empty_fields`). -/
def findallEF (doc : Str) : List Str := reScan efTry 0 doc

/-! ### The placeholder patterns of `check_defaults`

`check_defaults` runs three searches: `\[summary\]` (a literal), and
`:.*: *\[description\]` / `:.*: *\[type\]`.  In the latter two, `.`
does not cross a newline and ` *` is a run of spaces, so a match lies
inside one line: an outer colon, any characters, an inner colon
(greedily the last viable one), spaces, then the bracketed literal;
the match ends at the closing bracket, whatever follows. -/

/-- Attempt of the literal search: the literal itself must start
here. -/
def tryLit (lit : Str) (s : Str) : Option Nat :=
  if lit.isPrefixOf s then some lit.length else none

/-- ` *\[lit\]` directly after the inner colon: a run of spaces, then
the literal; returns the length consumed. -/
def spacesThen (lit : Str) (u : Str) : Option Nat :=
  let sp := u.takeWhile (· = ' ')
  if lit.isPrefixOf (u.drop sp.length) then some (sp.length + lit.length) else none

/-- Greedy `.*: *\[lit\]` on the part of the line after the outer
colon: the rightmost colon from which ` *\[lit\]` completes wins;
returns the length consumed (through the closing bracket). -/
def lastPlaceholder (lit : Str) : Str → Option Nat
  | [] => none
  | c :: cs =>
    match lastPlaceholder lit cs with
    | some n => some (n + 1)
    | none =>
      if c = ':' then (spacesThen lit cs).map (fun k => 1 + k) else none

/-- Attempt of `:.*: *\[lit\]` at the current position: an outer colon,
then the greedy completion inside the current line. -/
def tryPlaceholder (lit : Str) (s : Str) : Option Nat :=
  match s with
  | ':' :: rest => (lastPlaceholder lit (lineTail rest)).map (fun n => 1 + n)
  | _ => none

/-- `re.findall(r"\[summary\]", doc)`. -/
def findallLit (lit : Str) (doc : Str) : List Str := reScan (tryLit lit) 0 doc

/-- `re.findall(r":.*: *\[<lit>\]", doc)`. -/
def findallPlaceholder (lit : Str) (doc : Str) : List Str :=
  reScan (tryPlaceholder lit) 0 doc

/-! ### The four rules

Each rule is a function of the documentation text and the accumulated
`self.errors` list, returning the new list (the Python methods mutate
`self.errors` in place). -/

/-- `ParseFunctionDef.check_defaults`. -/
def check_defaults (d : Str) (errors : List Str) : List Str :=
  let errs :=
    findallLit (str "[summary]") d
      ++ findallPlaceholder (str "[description]") d
      ++ findallPlaceholder (str "[type]") d
  if errs ≠ [] then
    errors ++ errs.map (fun x => str "default-docstring-error: " ++ x)
  else errors

/-- First match of `.*\n(?:PAT₁.*|…|PAT₇.*)` over the text, split at
its single newline into the previous line and the field line.  `.*`
cannot cross a newline, so a match at a position consists of the rest
of the current line, the newline, and the whole next line, which must
open a field at column zero; the leftmost match wins
(`check_newlines` only uses `matches[0]`). -/
def firstNLFlat : Str → Option (Str × Str)
  | [] => none
  | c :: cs =>
    match (c :: cs).drop (lineTail (c :: cs)).length with
    | '\n' :: t =>
      if opensField t then some (lineTail (c :: cs), lineTail t)
      else firstNLFlat cs
    | _ => firstNLFlat cs

/-- `ParseFunctionDef.check_newlines`. -/
def check_newlines (d : Str) (errors : List Str) : List Str :=
  match firstNLFlat d with
  | none => errors
  | some (prev_line, sphinx_line) =>
    if pyStrip prev_line ≠ [] then
      errors ++
        [str "missing-newline-error: '" ++ sphinx_line ++ str "' needs newline before"]
    else errors

/-- `ParseFunctionDef.cehck_empty_docstring` (name as in the source). -/
def cehck_empty_docstring (d : Str) (errors : List Str) : List Str :=
  if pyStrip d = [] then
    errors ++ [str "empty-docstring-error: no docstring content"]
  else errors

/-- `ParseFunctionDef.check_empty_fields`. -/
def check_empty_fields (d : Str) (errors : List Str) : List Str :=
  let ms := findallEF d
  if ms = [] then errors
  else
    errors ++
      (ms.filter (fun line => ¬ (str ":meta").isPrefixOf line)).map
        (fun line => str "missing-description-error: " ++ line)

/-! ### Line-level reformulations

Equivalent line-by-line descriptions of the two flat scans above,
used to state what the rules do per documentation line.  The
equivalences are proved below (`findallEF_eq_perLineEF`,
`firstNLFlat_eq_firstNLPair`). -/

/-- Leftmost start, inside one line, of a `PAT\s*$` alternative whose
in-line part succeeds; returns the matched suffix of the line. -/
def lineEFMatch : Str → Option Str
  | [] => none
  | c :: cs => if efCoreOk (c :: cs) then some (c :: cs) else lineEFMatch cs

/-- Per-line account of `findallEF`: a line with a match yields one
result — the matched suffix of the line, extended (by the greedy
`\s*`) across any immediately following all-whitespace lines. -/
def perLineEF : List Str → List Str
  | [] => []
  | ℓ :: rest =>
    match lineEFMatch ℓ with
    | none => perLineEF rest
    | some m =>
      (m ++ glueNL (rest.takeWhile (fun b => b.all isWS))) :: perLineEF rest

/-- Per-line account of `firstNLFlat`: the first adjacent pair of
lines whose second line opens a field. -/
def firstNLPair : List Str → Option (Str × Str)
  | ℓ₀ :: ℓ₁ :: rest =>
    if opensField ℓ₁ then some (ℓ₀, ℓ₁) else firstNLPair (ℓ₁ :: rest)
  | _ => none

/-! ### The `ast` layer and the definition records -/

/-- Kinds of tree nodes, as far as the checker distinguishes them:
the three definition kinds, `Module` (also carries a docstring), and
everything else (`ast.get_docstring` raises `TypeError` on those). -/
inductive NodeKind where
  | Module | ClassDef | FunctionDef | AsyncFunctionDef | Other
deriving DecidableEq, Repr

/-- A parsed-source tree node: its kind, its `lineno` attribute if
present, its `name` attribute if present, its docstring (as
`ast.get_docstring` would return it, already cleaned) if the kind
supports one and one exists, and its child nodes. -/
inductive PyNode where
  | mk (kind : NodeKind) (linenoAttr : Option Nat) (nameAttr : Option Str)
      (docAttr : Option Str) (children : List PyNode)

/-- Node kind. -/
def PyNode.kind : PyNode → NodeKind
  | .mk k _ _ _ _ => k

/-- The `lineno` attribute, absent on e.g. `Module`. -/
def PyNode.linenoAttr : PyNode → Option Nat
  | .mk _ l _ _ _ => l

/-- The `name` attribute, absent on e.g. `Module`. -/
def PyNode.nameAttr : PyNode → Option Str
  | .mk _ _ nm _ _ => nm

/-- The docstring carried by the node, if any. -/
def PyNode.docAttr : PyNode → Option Str
  | .mk _ _ _ d _ => d

/-- Child nodes. -/
def PyNode.children : PyNode → List PyNode
  | .mk _ _ _ _ cs => cs

/-- `ParseFunctionDef`: one record per tree node, with the node, the
accumulated error list (empty on construction) and the file path. -/
structure ParseFunctionDef where
  function_def : PyNode
  errors : List Str
  path : Str

/-- `ParseFunctionDef.docstring`: `ast.get_docstring` on the node,
with `TypeError` (kinds that cannot carry a docstring) caught and
turned into `None`. -/
def ParseFunctionDef.docstring (r : ParseFunctionDef) : Option Str :=
  match r.function_def.kind with
  | .Other => none
  | _ => r.function_def.docAttr

/-- `ParseFunctionDef.name`: the node's name, with `AttributeError`
recovered as the empty string. -/
def ParseFunctionDef.name (r : ParseFunctionDef) : Str :=
  (r.function_def.nameAttr).getD []

/-- `ParseFunctionDef.lineno`: the node's line number, with
`AttributeError` recovered as `0`. -/
def ParseFunctionDef.lineno (r : ParseFunctionDef) : Nat :=
  (r.function_def.linenoAttr).getD 0

/-- Decimal rendering of a line number. -/
def natStr (n : Nat) : Str := (toString n).data

/-- `ParseFunctionDef.print_errors`: the lines written to standard
output (one entry per `print` call; the last `print()` is the empty
line). -/
def ParseFunctionDef.print_errors (r : ParseFunctionDef) : List Str :=
  if r.errors ≠ [] then
    [str "*** " ++ r.path ++ str ":" ++ r.name ++ str ":" ++ natStr r.lineno,
      joinLines r.errors,
      []]
  else []

/-- `ParseFunctionDef.run_checks`: short-circuit when there is no
docstring (the bare `return`, i.e. `None`); otherwise run the four
rules in source order, print, and return the error count.  The result
is the updated record, the Python return value (`none` models `None`),
and the printed output. -/
def ParseFunctionDef.run_checks (r : ParseFunctionDef) :
    ParseFunctionDef × Option Nat × List Str :=
  match r.docstring with
  | none => (r, none, [])
  | some d =>
    let r1 : ParseFunctionDef := { r with errors := check_defaults d r.errors }
    let r2 : ParseFunctionDef := { r1 with errors := cehck_empty_docstring d r1.errors }
    let r3 : ParseFunctionDef := { r2 with errors := check_empty_fields d r2.errors }
    let r4 : ParseFunctionDef := { r3 with errors := check_newlines d r3.errors }
    (r4, some r4.errors.length, r4.print_errors)

mutual

/-- Number of nodes of a tree. -/
def PyNode.size : PyNode → Nat
  | .mk _ _ _ _ cs => 1 + sizeList cs

/-- Number of nodes of a list of trees. -/
def sizeList : List PyNode → Nat
  | [] => 0
  | n :: ns => PyNode.size n + sizeList ns

end

/-- Total number of nodes below the queued nodes. -/
def sumSize (q : List PyNode) : Nat := (q.map PyNode.size).sum

/-- Queue loop of `ast.walk`: breadth-first order, the node first,
its children appended to the back of the queue.  The fuel is only a
termination device; `walkAux_fuel` below shows any fuel at least
`sumSize` of the queue gives the same (complete) traversal. -/
def walkAux : Nat → List PyNode → List PyNode
  | 0, _ => []
  | _ + 1, [] => []
  | fuel + 1, n :: rest => n :: walkAux fuel (rest ++ n.children)

/-- `ast.walk`: every node of the tree, breadth first. -/
def walk (m : PyNode) : List PyNode := walkAux m.size [m]

/-- Comparison used by `functions.sort(key=lambda x: x.lineno)`. -/
def linenoLe (a b : ParseFunctionDef) : Prop := a.lineno ≤ b.lineno

instance : DecidableRel linenoLe := fun a b => Nat.decLe a.lineno b.lineno

instance : IsTotal ParseFunctionDef linenoLe := ⟨fun a b => Nat.le_total a.lineno b.lineno⟩

instance : IsTrans ParseFunctionDef linenoLe := ⟨fun _ _ _ => Nat.le_trans⟩

/-- `function_definitions`: wrap every walked node in a record and
sort by line number (a stable sort, as Python's `list.sort`;
insertion sort with `≤` on the key is stable). -/
def function_definitions (m : PyNode) (fpath : Str) : List ParseFunctionDef :=
  List.insertionSort linenoLe ((walk m).map (fun x => ⟨x, [], fpath⟩))

/-- Python truthiness of a `run_checks` return value: `None` and `0`
are falsy. -/
def truthy : Option Nat → Bool
  | none => false
  | some n => n ≠ 0

/-- `check_docstrings` for one parsed file: `bool(any(returncodes))`
as an `int`. -/
def check_docstrings (m : PyNode) (fpath : Str) : Nat :=
  if ((function_definitions m fpath).map
      (fun x => x.run_checks.2.1)).any truthy then 1 else 0

/-- `main` over the resolved list of parsed files (command-line
expansion of paths to files is outside the core): accumulate the
per-file results and collapse to a Unix exit status. -/
def main (files : List (PyNode × Str)) : Nat :=
  if 0 < (files.map (fun f => check_docstrings f.1 f.2)).sum then 1 else 0

/-! ### Basic facts about lines and whitespace -/

/-- No newline occurs in `ℓ`. -/
abbrev NLFree (ℓ : Str) : Prop := ∀ c ∈ ℓ, c ≠ '\n'

/-- Every character of `ℓ` is whitespace. -/
abbrev AllWS (ℓ : Str) : Prop := ∀ c ∈ ℓ, isWS c = true

lemma nlFree_of_allWS_space {ℓ : Str} (h : ∀ c ∈ ℓ, c = ' ' ∨ c = '\t') : NLFree ℓ := by
  intro c hc
  rcases h c hc with h' | h' <;> simp [h']

lemma lineTail_eq_self {ℓ : Str} (h : NLFree ℓ) : lineTail ℓ = ℓ := by
  have h' : ∀ c ∈ ℓ, (fun c => decide (c ≠ '\n')) c = true := by
    intro c hc; simpa using h c hc
  have := @List.takeWhile_append_of_pos Char (fun c => decide (c ≠ '\n')) ℓ [] h'
  simpa [lineTail] using this

lemma lineTail_append_newline {ℓ r : Str} (h : NLFree ℓ) :
    lineTail (ℓ ++ '\n' :: r) = ℓ := by
  have h' : ∀ c ∈ ℓ, (fun c => decide (c ≠ '\n')) c = true := by
    intro c hc; simpa using h c hc
  have := @List.takeWhile_append_of_pos Char (fun c => decide (c ≠ '\n')) ℓ ('\n' :: r) h'
  simpa [lineTail, List.takeWhile_cons] using this

lemma lineTail_append_of_shape {ℓ X : Str} (h : NLFree ℓ)
    (hX : X = [] ∨ ∃ t, X = '\n' :: t) : lineTail (ℓ ++ X) = ℓ := by
  rcases hX with rfl | ⟨t, rfl⟩
  · rw [List.append_nil]; exact lineTail_eq_self h
  · exact lineTail_append_newline h

lemma drop_lineTail_append {ℓ X : Str} (h : NLFree ℓ)
    (hX : X = [] ∨ ∃ t, X = '\n' :: t) :
    (ℓ ++ X).drop (lineTail (ℓ ++ X)).length = X := by
  rw [lineTail_append_of_shape h hX, List.drop_left]

lemma splitLines_ne_nil (s : Str) : splitLines s ≠ [] := by
  induction s with
  | nil => simp [splitLines]
  | cons c cs ih =>
    rw [splitLines]
    split
    · simp
    · cases h : splitLines cs with
      | nil => exact absurd h ih
      | cons ℓ ls => simp

lemma splitLines_nlFree (s : Str) : ∀ ℓ ∈ splitLines s, NLFree ℓ := by
  induction s with
  | nil =>
    intro ℓ hℓ
    simp [splitLines] at hℓ
    simp [hℓ, NLFree]
  | cons c cs ih =>
    intro ℓ hℓ
    rw [splitLines] at hℓ
    by_cases hc : c = '\n'
    · simp only [if_pos hc] at hℓ
      rcases List.mem_cons.mp hℓ with rfl | h
      · simp [NLFree]
      · exact ih ℓ h
    · simp only [if_neg hc] at hℓ
      cases h : splitLines cs with
      | nil => exact absurd h (splitLines_ne_nil cs)
      | cons ℓ₀ ls =>
        rw [h] at hℓ
        rcases List.mem_cons.mp hℓ with rfl | hmem
        · intro x hx
          rcases List.mem_cons.mp hx with rfl | hx'
          · exact hc
          · exact ih ℓ₀ (by simp [h]) x hx'
        · exact ih ℓ (by simp [h, hmem])

lemma joinLines_cons (ℓ : Str) (ls : List Str) :
    joinLines (ℓ :: ls) = ℓ ++ (if ls = [] then [] else '\n' :: joinLines ls) := by
  cases ls with
  | nil => simp [joinLines]
  | cons a l => simp [joinLines]

lemma joinLines_splitLines (s : Str) : joinLines (splitLines s) = s := by
  induction s with
  | nil => simp [splitLines, joinLines]
  | cons c cs ih =>
    rw [splitLines]
    by_cases hc : c = '\n'
    · rw [if_pos hc, joinLines_cons, if_neg (splitLines_ne_nil cs), ih, hc]
      simp
    · rw [if_neg hc]
      cases h : splitLines cs with
      | nil => exact absurd h (splitLines_ne_nil cs)
      | cons ℓ ls =>
        rw [h] at ih
        rw [joinLines_cons]
        rw [joinLines_cons] at ih
        simp only [List.cons_append]
        rw [ih]

lemma glueNL_eq_cons_joinLines {bs : List Str} (h : bs ≠ []) :
    glueNL bs = '\n' :: joinLines bs := by
  induction bs with
  | nil => exact absurd rfl h
  | cons b bs ih =>
    cases hbs : bs with
    | nil => simp [glueNL, joinLines]
    | cons b' bs' =>
      rw [hbs] at ih
      have := ih (by simp)
      simp only [glueNL, List.map_cons, List.flatten_cons] at this ⊢
      rw [joinLines_cons, if_neg (by simp)]
      rw [← this]
      simp

lemma joinLines_allWS {bs : List Str} (h : ∀ b ∈ bs, AllWS b) :
    AllWS (joinLines bs) := by
  induction bs with
  | nil => simp [joinLines, AllWS]
  | cons b bs ih =>
    rw [joinLines_cons]
    split
    · simpa using h b (by simp)
    · intro c hc
      rcases List.mem_append.mp hc with hc | hc
      · exact h b (by simp) c hc
      · rcases List.mem_cons.mp hc with rfl | hc'
        · simp [isWS]
        · exact ih (fun x hx => h x (by simp [hx])) c hc'

lemma glueNL_allWS {bs : List Str} (h : ∀ b ∈ bs, AllWS b) : AllWS (glueNL bs) := by
  cases hbs : bs with
  | nil => simp [glueNL, AllWS]
  | cons b bs' =>
    rw [← hbs, glueNL_eq_cons_joinLines (by simp [hbs])]
    intro c hc
    rcases List.mem_cons.mp hc with rfl | hc'
    · simp [isWS]
    · exact joinLines_allWS h c hc'

lemma pyStrip_eq_nil_iff {s : Str} : pyStrip s = [] ↔ AllWS s := by
  unfold pyStrip AllWS
  constructor
  · intro h c hc
    by_contra hws
    have h1 : c ∈ s.dropWhile isWS ∨ isWS c = true := by
      have hsplit := List.takeWhile_append_dropWhile (p := isWS) (l := s)
      rw [← hsplit] at hc
      rcases List.mem_append.mp hc with h' | h'
      · exact Or.inr (List.mem_takeWhile_imp h')
      · exact Or.inl h'
    rcases h1 with h1 | h1
    · have h2 : c ∈ (s.dropWhile isWS).reverse.dropWhile isWS ∨ isWS c = true := by
        have hsplit := List.takeWhile_append_dropWhile (p := isWS)
          (l := (s.dropWhile isWS).reverse)
        have hc' : c ∈ (s.dropWhile isWS).reverse := by simpa using h1
        rw [← hsplit] at hc'
        rcases List.mem_append.mp hc' with h' | h'
        · exact Or.inr (List.mem_takeWhile_imp h')
        · exact Or.inl h'
      rcases h2 with h2 | h2
      · rw [List.reverse_eq_nil_iff] at h
        rw [h] at h2
        simp at h2
      · exact hws h2
    · exact hws h1
  · intro h
    have h1 : s.dropWhile isWS = [] := List.dropWhile_eq_nil_iff.mpr (fun x hx => h x hx)
    simp [h1]

/-! ### Generic facts about the findall scan -/

lemma reScan_skip (f : Str → Option Nat) :
    ∀ (s : Str) (k : Nat), reScan f k s = reScan f 0 (s.drop k) := by
  intro s
  induction s with
  | nil => intro k; cases k <;> rfl
  | cons c cs ih =>
    intro k
    cases k with
    | zero => rfl
    | succ k' => rw [reScan, List.drop_succ_cons, ih]

lemma reScan_ne_nil (f : Str → Option Nat) {v : Str}
    (hv : (f v).isSome) (hne : v ≠ []) :
    ∀ u : Str, reScan f 0 (u ++ v) ≠ [] := by
  intro u
  induction u with
  | nil =>
    simp only [List.nil_append]
    cases v with
    | nil => exact absurd rfl hne
    | cons c cs =>
      rw [reScan]
      cases h : f (c :: cs) with
      | none => rw [h] at hv; simp at hv
      | some n => simp
  | cons c u' ih =>
    rw [List.cons_append, reScan]
    cases h : f (c :: (u' ++ v)) with
    | none => exact ih
    | some n => simp

lemma reScan_mem_aux (f : Str → Option Nat) :
    ∀ (N : Nat) (s : Str), s.length ≤ N →
      ∀ m ∈ reScan f 0 s, ∃ v n, v <:+ s ∧ f v = some n ∧ m = v.take n := by
  intro N
  induction N with
  | zero =>
    intro s hs m hm
    rw [List.length_eq_zero.mp (Nat.le_zero.mp hs)] at hm
    simp [reScan] at hm
  | succ N ih =>
    intro s hs m hm
    cases s with
    | nil => simp [reScan] at hm
    | cons c cs =>
      rw [reScan] at hm
      cases h : f (c :: cs) with
      | none =>
        rw [h] at hm
        obtain ⟨v, n, hsfx, hf, hm⟩ :=
          ih cs (by simp only [List.length_cons] at hs; omega) m hm
        exact ⟨v, n, hsfx.trans (List.suffix_cons c cs), hf, hm⟩
      | some n =>
        rw [h] at hm
        rcases List.mem_cons.mp hm with rfl | hm'
        · exact ⟨c :: cs, n, List.suffix_rfl, h, rfl⟩
        · rw [reScan_skip] at hm'
          have hlen : (cs.drop (n - 1)).length ≤ N := by
            have h1 : (cs.drop (n - 1)).length ≤ cs.length := by
              simp [List.length_drop]
            have h2 : cs.length ≤ N := by
              have := hs
              simp only [List.length_cons] at this
              omega
            omega
          obtain ⟨v, k, hsfx, hf, hm⟩ := ih (cs.drop (n - 1)) hlen m hm'
          refine ⟨v, k, hsfx.trans ?_, hf, hm⟩
          exact (List.drop_suffix _ _).trans (List.suffix_cons c cs)

lemma reScan_mem (f : Str → Option Nat) (s : Str) :
    ∀ m ∈ reScan f 0 s, ∃ v n, v <:+ s ∧ f v = some n ∧ m = v.take n :=
  reScan_mem_aux f s.length s le_rfl

lemma reScan_all_none (f : Str → Option Nat) :
    ∀ s : Str, (∀ v, v <:+ s → f v = none) → reScan f 0 s = [] := by
  intro s
  induction s with
  | nil => intro _; rfl
  | cons c cs ih =>
    intro h
    rw [reScan, h (c :: cs) List.suffix_rfl]
    exact ih (fun v hv => h v (hv.trans (List.suffix_cons c cs)))

/-! ### Head-character facts: every pattern of the table starts with a
colon, so nothing is recognised at a position holding another
character (in particular at whitespace). -/

lemma tagLit_head (t : Tag) : (tagLit t).head? = some ':' := by
  cases t <;> rfl

lemma isPrefixOf_head_colon {l : Str} {c : Char} {cs : Str}
    (hl : l.head? = some ':') (h : l.isPrefixOf (c :: cs) = true) : c = ':' := by
  cases l with
  | nil => simp at hl
  | cons a l' =>
    simp only [List.head?_cons, Option.some.injEq] at hl
    rw [List.isPrefixOf_iff_prefix] at h
    obtain ⟨t, ht⟩ := h
    rw [List.cons_append] at ht
    injection ht with h1 _
    rw [← h1, hl]

lemma efCoreOk_eq_false {c : Char} (cs : Str) (hc : c ≠ ':') :
    efCoreOk (c :: cs) = false := by
  rw [efCoreOk]
  rw [List.any_eq_false]
  intro t _
  intro hand
  rw [Bool.and_eq_true] at hand
  exact hc (isPrefixOf_head_colon (tagLit_head t) hand.1)

lemma efCoreOk_nil : efCoreOk [] = false := by decide

lemma reMatch_eq_false {t : Tag} {c : Char} (line : Str) (hc : c ≠ ':') :
    reMatch t (c :: line) = false := by
  have hp : (tagLit t).isPrefixOf (c :: line) = false := by
    cases hb : (tagLit t).isPrefixOf (c :: line) with
    | false => rfl
    | true => exact absurd (isPrefixOf_head_colon (tagLit_head t) hb) hc
  rw [reMatch.eq_def, hp]
  simp

lemma reMatch_nil (t : Tag) : reMatch t [] = false := by
  cases t <;> decide

lemma opensField_eq_false {s : Str} (h : (lineTail s).head? ≠ some ':') :
    opensField s = false := by
  rw [opensField, List.any_eq_false]
  intro t _
  cases hl : lineTail s with
  | nil => simp [reMatch_nil]
  | cons c cs =>
    have hc : c ≠ ':' := by
      intro hc'
      exact h (by rw [hl, hc', List.head?_cons])
    simp [reMatch_eq_false cs hc]

lemma allWS_not_colon {c : Char} (h : isWS c = true) : c ≠ ':' := by
  intro hc
  rw [hc] at h
  simp [isWS] at h

lemma allWS_suffix {s v : Str} (h : AllWS s) (hv : v <:+ s) : AllWS v :=
  fun c hc => h c (hv.sublist.subset hc)

lemma lineTail_allWS {s : Str} (h : AllWS s) : AllWS (lineTail s) :=
  fun c hc => h c ((List.takeWhile_prefix _).sublist.subset hc)

/-! ### No rule finds anything in all-whitespace text -/

lemma efTry_ws {v : Str} (h : AllWS v) : efTry v = none := by
  rw [efTry]
  cases hl : lineTail v with
  | nil => rw [efCoreOk_nil]; rfl
  | cons c cs =>
    have hc : isWS c = true := lineTail_allWS h c (by rw [hl]; simp)
    rw [efCoreOk_eq_false cs (allWS_not_colon hc)]
    rfl

lemma findallEF_ws {s : Str} (h : AllWS s) : findallEF s = [] := by
  unfold findallEF
  exact reScan_all_none efTry s (fun v hv => efTry_ws (allWS_suffix h hv))

lemma tryLit_summary_ws {v : Str} (h : AllWS v) :
    tryLit (str "[summary]") v = none := by
  rw [tryLit]
  cases hp : (str "[summary]").isPrefixOf v with
  | false => rfl
  | true =>
    cases v with
    | nil => simp [str] at hp
    | cons c cs =>
      rw [List.isPrefixOf_iff_prefix] at hp
      obtain ⟨t, ht⟩ := hp
      have hd : (str "[summary]") = '[' :: (str "summary]") := rfl
      rw [hd, List.cons_append] at ht
      injection ht with h1 _
      have hws := h c (by simp)
      rw [← h1] at hws
      simp [isWS] at hws

lemma tryPlaceholder_ws {lit v : Str} (h : AllWS v) : tryPlaceholder lit v = none := by
  cases v with
  | nil => rfl
  | cons c cs =>
    have hc : c ≠ ':' := allWS_not_colon (h c (by simp))
    rw [tryPlaceholder.eq_def]
    split
    · rename_i rest heq
      injection heq with h1 _
      exact absurd h1 hc
    · rfl

lemma findall_defaults_ws {s : Str} (h : AllWS s) :
    findallLit (str "[summary]") s = [] ∧
      findallPlaceholder (str "[description]") s = [] ∧
      findallPlaceholder (str "[type]") s = [] := by
  refine ⟨?_, ?_, ?_⟩
  · exact reScan_all_none _ s (fun v hv => tryLit_summary_ws (allWS_suffix h hv))
  · exact reScan_all_none _ s (fun v hv => tryPlaceholder_ws (allWS_suffix h hv))
  · exact reScan_all_none _ s (fun v hv => tryPlaceholder_ws (allWS_suffix h hv))

lemma firstNLFlat_ws {s : Str} (h : AllWS s) : firstNLFlat s = none := by
  induction s with
  | nil => rfl
  | cons c cs ih =>
    rw [firstNLFlat]
    have ih' := ih (fun x hx => h x (by simp [hx]))
    split
    · rename_i t heq
      have hsfx : t <:+ (c :: cs) := by
        have h1 : '\n' :: t <:+ (c :: cs) := by
          rw [← heq]
          exact List.drop_suffix _ _
        exact (List.suffix_cons '\n' t).trans h1
      have ht : AllWS t := allWS_suffix h hsfx
      rw [opensField_eq_false]
      · exact ih'
      · cases hl : lineTail t with
        | nil => simp
        | cons a as =>
          have ha : isWS a = true := lineTail_allWS ht a (by rw [hl]; simp)
          simp only [List.head?_cons, Option.some.injEq, Ne]
          exact allWS_not_colon ha
    · exact ih'

/-! ### Closed forms of the four rules: each is `errors ++ extra` -/

/-- The diagnostics contributed by `check_defaults`. -/
def defaultsExtra (d : Str) : List Str :=
  (findallLit (str "[summary]") d
      ++ findallPlaceholder (str "[description]") d
      ++ findallPlaceholder (str "[type]") d).map
    (fun x => str "default-docstring-error: " ++ x)

lemma check_defaults_eq (d : Str) (errors : List Str) :
    check_defaults d errors = errors ++ defaultsExtra d := by
  rw [check_defaults, defaultsExtra]
  split
  · rfl
  · rename_i hne
    rw [not_not] at hne
    rw [hne]
    simp

/-- The diagnostic contributed by `cehck_empty_docstring`. -/
def emptyDocExtra (d : Str) : List Str :=
  if pyStrip d = [] then [str "empty-docstring-error: no docstring content"] else []

lemma cehck_empty_docstring_eq (d : Str) (errors : List Str) :
    cehck_empty_docstring d errors = errors ++ emptyDocExtra d := by
  rw [cehck_empty_docstring, emptyDocExtra]
  split
  · rfl
  · simp

/-- The diagnostics contributed by `check_empty_fields`. -/
def emptyFieldsExtra (d : Str) : List Str :=
  ((findallEF d).filter (fun line => ¬ (str ":meta").isPrefixOf line)).map
    (fun line => str "missing-description-error: " ++ line)

lemma check_empty_fields_eq (d : Str) (errors : List Str) :
    check_empty_fields d errors = errors ++ emptyFieldsExtra d := by
  rw [check_empty_fields, emptyFieldsExtra]
  split
  · rename_i hnil
    rw [hnil]
    simp
  · rfl

/-- The diagnostic contributed by `check_newlines`. -/
def newlinesExtra (d : Str) : List Str :=
  match firstNLFlat d with
  | none => []
  | some (prev_line, sphinx_line) =>
    if pyStrip prev_line ≠ [] then
      [str "missing-newline-error: '" ++ sphinx_line ++ str "' needs newline before"]
    else []

lemma check_newlines_eq (d : Str) (errors : List Str) :
    check_newlines d errors = errors ++ newlinesExtra d := by
  rw [check_newlines, newlinesExtra]
  cases firstNLFlat d with
  | none => simp
  | some pr =>
    cases pr with
    | mk p f =>
      dsimp only
      split
      · rfl
      · simp

lemma run_checks_some {r : ParseFunctionDef} {d : Str} (h : r.docstring = some d) :
    r.run_checks =
      (let es :=
        check_newlines d (check_empty_fields d (cehck_empty_docstring d (check_defaults d r.errors)))
      ({ r with errors := es }, some es.length,
        ParseFunctionDef.print_errors { r with errors := es })) := by
  rw [ParseFunctionDef.run_checks, h]

lemma run_checks_errors_eq {r : ParseFunctionDef} {d : Str} (h : r.docstring = some d) :
    (r.run_checks).1.errors =
      r.errors ++ (defaultsExtra d ++ emptyDocExtra d ++ emptyFieldsExtra d ++ newlinesExtra d) := by
  rw [run_checks_some h]
  dsimp only
  rw [check_defaults_eq, cehck_empty_docstring_eq, check_empty_fields_eq, check_newlines_eq]
  simp [List.append_assoc]

lemma run_checks_none {r : ParseFunctionDef} (h : r.docstring = none) :
    r.run_checks = (r, none, []) := by
  rw [ParseFunctionDef.run_checks.eq_def, h]

lemma run_checks_count {r : ParseFunctionDef} {d : Str} (h : r.docstring = some d) :
    (r.run_checks).2.1 = some ((r.run_checks).1.errors).length := by
  rw [run_checks_some h]

/-! ### C2 — `run_checks` on a record with no docstring

The bare `return` in `run_checks` produces Python `None`, not the
number `0` promised by the claim and by the function's own `-> int`
annotation and `:return: number of errors` docstring.  The record
below (a function definition with no docstring) is a failing input:
the returned value is `none`, not `some 0`. -/

/-- A record wrapping `def f(): pass` — a function with no
docstring. -/
def noDocRecord : ParseFunctionDef :=
  ⟨.mk .FunctionDef (some 1) (some (str "f")) none [], [], str "mod.py"⟩

/-- C2: on a record with no documentation string, `run_checks` appends
no diagnostics and prints nothing, but returns `None` (the bare
`return`), not the number `0` the claim states. -/
theorem c2_run_checks_none_not_zero :
    noDocRecord.docstring = none ∧
      noDocRecord.run_checks = (noDocRecord, none, []) := ⟨rfl, rfl⟩

/-! ### C8 — every rule is a pure function of the docstring text -/

/-- C8: the diagnostics produced and the count returned by
`run_checks` depend only on the documentation text (and the already
accumulated list): two records with the same docstring and the same
starting `errors` list produce identical diagnostics, in the same
order, and the same return value — regardless of path, name, line
number or node shape.  Two runs on the same record are the special
case `r₁ = r₂`. -/
theorem c8_pure_function_of_docstring (r₁ r₂ : ParseFunctionDef)
    (hd : r₁.docstring = r₂.docstring) (he : r₁.errors = r₂.errors) :
    (r₁.run_checks).1.errors = (r₂.run_checks).1.errors ∧
      (r₁.run_checks).2.1 = (r₂.run_checks).2.1 := by
  cases h2 : r₂.docstring with
  | none =>
    have h1 : r₁.docstring = none := by rw [hd, h2]
    rw [run_checks_none h1, run_checks_none h2]
    exact ⟨he, rfl⟩
  | some d =>
    have h1 : r₁.docstring = some d := by rw [hd, h2]
    have herr : (r₁.run_checks).1.errors = (r₂.run_checks).1.errors := by
      rw [run_checks_errors_eq h1, run_checks_errors_eq h2, he]
    refine ⟨herr, ?_⟩
    rw [run_checks_count h1, run_checks_count h2, herr]

/-- Closed instance of C8: two records over the same text in different
files, with different names and line numbers, yield the same
diagnostics and count. -/
theorem c8_witness :
    ((⟨.mk .FunctionDef (some 1) (some (str "f")) (some (str "[summary]")) [], [],
        str "a.py"⟩ : ParseFunctionDef).run_checks).1.errors =
      ((⟨.mk .ClassDef (some 9) (some (str "C")) (some (str "[summary]")) [], [],
        str "b.py"⟩ : ParseFunctionDef).run_checks).1.errors ∧
    ((⟨.mk .FunctionDef (some 1) (some (str "f")) (some (str "[summary]")) [], [],
        str "a.py"⟩ : ParseFunctionDef).run_checks).2.1 =
      ((⟨.mk .ClassDef (some 9) (some (str "C")) (some (str "[summary]")) [], [],
        str "b.py"⟩ : ParseFunctionDef).run_checks).2.1 :=
  c8_pure_function_of_docstring _ _ rfl rfl

/-! ### C9 — the diagnostics list grows only, with tagged entries -/

/-- A diagnostic string carries one of the four category prefixes. -/
def hasCategory (e : Str) : Prop :=
  str "default-docstring-error" <+: e ∨ str "empty-docstring-error" <+: e ∨
    str "missing-description-error" <+: e ∨ str "missing-newline-error" <+: e

lemma defaultsExtra_cat (d : Str) : ∀ e ∈ defaultsExtra d, hasCategory e := by
  intro e he
  rw [defaultsExtra] at he
  obtain ⟨x, _, hx⟩ := List.mem_map.mp he
  refine Or.inl ⟨str ": " ++ x, ?_⟩
  rw [← hx, ← List.append_assoc]
  rfl

lemma emptyDocExtra_cat (d : Str) : ∀ e ∈ emptyDocExtra d, hasCategory e := by
  intro e he
  rw [emptyDocExtra] at he
  split at he
  · rcases List.mem_singleton.mp he with rfl
    exact Or.inr (Or.inl ⟨str ": no docstring content", rfl⟩)
  · simp at he

lemma emptyFieldsExtra_cat (d : Str) : ∀ e ∈ emptyFieldsExtra d, hasCategory e := by
  intro e he
  rw [emptyFieldsExtra] at he
  obtain ⟨x, _, hx⟩ := List.mem_map.mp he
  refine Or.inr (Or.inr (Or.inl ⟨str ": " ++ x, ?_⟩))
  rw [← hx, ← List.append_assoc]
  rfl

lemma newlinesExtra_cat (d : Str) : ∀ e ∈ newlinesExtra d, hasCategory e := by
  intro e he
  rw [newlinesExtra.eq_def] at he
  split at he
  · simp at he
  · split at he
    · rcases List.mem_singleton.mp he with rfl
      rename_i p f _ _
      refine Or.inr (Or.inr (Or.inr ⟨str ": '" ++ f ++ str "' needs newline before", ?_⟩))
      rw [← List.append_assoc]
      rfl
    · simp at he

/-- C9: after each of the four rules, the previous diagnostics list is
a prefix of the new one (rules only append), every appended diagnostic
begins with one of the four category prefixes, and across a whole
`run_checks` call the record's diagnostics list likewise only grows. -/
theorem c9_diagnostics_grow_only (d : Str) (errs : List Str) (r : ParseFunctionDef) :
    (errs <+: check_defaults d errs ∧
        ∀ e ∈ (check_defaults d errs).drop errs.length, hasCategory e) ∧
      (errs <+: cehck_empty_docstring d errs ∧
        ∀ e ∈ (cehck_empty_docstring d errs).drop errs.length, hasCategory e) ∧
      (errs <+: check_empty_fields d errs ∧
        ∀ e ∈ (check_empty_fields d errs).drop errs.length, hasCategory e) ∧
      (errs <+: check_newlines d errs ∧
        ∀ e ∈ (check_newlines d errs).drop errs.length, hasCategory e) ∧
      r.errors <+: (r.run_checks).1.errors := by
  refine ⟨⟨?_, ?_⟩, ⟨?_, ?_⟩, ⟨?_, ?_⟩, ⟨?_, ?_⟩, ?_⟩
  · rw [check_defaults_eq]; exact List.prefix_append errs _
  · rw [check_defaults_eq, List.drop_left]; exact defaultsExtra_cat d
  · rw [cehck_empty_docstring_eq]; exact List.prefix_append errs _
  · rw [cehck_empty_docstring_eq, List.drop_left]; exact emptyDocExtra_cat d
  · rw [check_empty_fields_eq]; exact List.prefix_append errs _
  · rw [check_empty_fields_eq, List.drop_left]; exact emptyFieldsExtra_cat d
  · rw [check_newlines_eq]; exact List.prefix_append errs _
  · rw [check_newlines_eq, List.drop_left]; exact newlinesExtra_cat d
  · cases h : r.docstring with
    | none => rw [run_checks_none h]
    | some d' => rw [run_checks_errors_eq h]; exact List.prefix_append _ _

/-- Closed instance of C9: on the text `[summary]` the defaults rule
appends one diagnostic carrying a category prefix. -/
theorem c9_witness : hasCategory (str "default-docstring-error: [summary]") :=
  (c9_diagnostics_grow_only (str "[summary]") []
      ⟨.mk .Other none none none [], [], []⟩).1.2
    (str "default-docstring-error: [summary]") (by decide)

/-! ### C10 — a present but all-whitespace docstring -/

/-- C10: a record whose docstring is present but blank after stripping
gets exactly one diagnostic, the `empty-docstring-error`, and
`run_checks` returns `1`: the other three rules find nothing in
all-whitespace text. -/
theorem c10_blank_docstring (r : ParseFunctionDef) (d : Str)
    (hd : r.docstring = some d) (hws : pyStrip d = []) (he : r.errors = []) :
    (r.run_checks).1.errors = [str "empty-docstring-error: no docstring content"] ∧
      (r.run_checks).2.1 = some 1 := by
  have hall : AllWS d := pyStrip_eq_nil_iff.mp hws
  have h1 : defaultsExtra d = [] := by
    obtain ⟨a, b, c⟩ := findall_defaults_ws hall
    rw [defaultsExtra, a, b, c]
    rfl
  have h2 : emptyDocExtra d = [str "empty-docstring-error: no docstring content"] := by
    rw [emptyDocExtra, if_pos hws]
  have h3 : emptyFieldsExtra d = [] := by
    rw [emptyFieldsExtra, findallEF_ws hall]
    rfl
  have h4 : newlinesExtra d = [] := by
    rw [newlinesExtra.eq_def, firstNLFlat_ws hall]
  have herr : (r.run_checks).1.errors = [str "empty-docstring-error: no docstring content"] := by
    rw [run_checks_errors_eq hd, he, h1, h2, h3, h4]
    rfl
  refine ⟨herr, ?_⟩
  rw [run_checks_count hd, herr]
  rfl

/-- Closed instance of C10 at the docstring `"  \n "`. -/
theorem c10_witness :
    (((⟨.mk .FunctionDef (some 2) (some (str "g")) (some (str "  \n ")) [], [],
        str "w.py"⟩ : ParseFunctionDef).run_checks).1.errors =
      [str "empty-docstring-error: no docstring content"]) ∧
      ((⟨.mk .FunctionDef (some 2) (some (str "g")) (some (str "  \n ")) [], [],
        str "w.py"⟩ : ParseFunctionDef).run_checks).2.1 = some 1 :=
  c10_blank_docstring _ (str "  \n ") rfl (by decide) rfl

/-! ### C7 — aggregate exit status -/

lemma mem_function_definitions_errors (m : PyNode) (p : Str) :
    ∀ x ∈ function_definitions m p, x.errors = [] := by
  intro x hx
  rw [function_definitions] at hx
  rw [List.mem_insertionSort] at hx
  obtain ⟨n, _, rfl⟩ := List.mem_map.mp hx
  rfl

lemma truthy_iff_errors {x : ParseFunctionDef} (he : x.errors = []) :
    truthy (x.run_checks).2.1 = true ↔ (x.run_checks).1.errors ≠ [] := by
  cases h : x.docstring with
  | none =>
    rw [run_checks_none h]
    simp [truthy, he]
  | some d =>
    rw [run_checks_count h]
    simp [truthy, List.length_eq_zero]

lemma check_docstrings_pos_iff (m : PyNode) (p : Str) :
    0 < check_docstrings m p ↔
      ∃ x ∈ function_definitions m p, (x.run_checks).1.errors ≠ [] := by
  rw [check_docstrings]
  have hmap :
      ∀ l : List ParseFunctionDef,
        (l.map (fun x => x.run_checks.2.1)).any truthy =
          l.any (fun x => truthy x.run_checks.2.1) := by
    intro l
    induction l with
    | nil => rfl
    | cons a l ih => simp only [List.map_cons, List.any_cons, ih]
  rw [hmap]
  split
  · rename_i h
    rw [List.any_eq_true] at h
    obtain ⟨x, hx, ht⟩ := h
    simp only [Nat.lt_irrefl, true_iff, Nat.zero_lt_one, true_iff]
    exact ⟨x, hx, (truthy_iff_errors (mem_function_definitions_errors m p x hx)).mp ht⟩
  · rename_i h
    simp only [Nat.lt_irrefl, false_iff]
    intro ⟨x, hx, hne⟩
    exact h (List.any_eq_true.mpr
      ⟨x, hx, (truthy_iff_errors (mem_function_definitions_errors m p x hx)).mpr hne⟩)

lemma check_docstrings_zero_or_one (m : PyNode) (p : Str) :
    check_docstrings m p = 0 ∨ check_docstrings m p = 1 := by
  rw [check_docstrings]
  split
  · exact Or.inr rfl
  · exact Or.inl rfl

lemma natSum_pos_iff (l : List Nat) : 0 < l.sum ↔ ∃ x ∈ l, 0 < x := by
  induction l with
  | nil => simp
  | cons a l ih =>
    simp only [List.sum_cons, List.mem_cons]
    constructor
    · intro h
      by_cases ha : 0 < a
      · exact ⟨a, Or.inl rfl, ha⟩
      · have ha0 : a = 0 := by omega
        rw [ha0, Nat.zero_add] at h
        obtain ⟨x, hx, hp⟩ := ih.mp h
        exact ⟨x, Or.inr hx, hp⟩
    · intro ⟨x, hx, hp⟩
      rcases hx with rfl | hx
      · omega
      · have := ih.mpr ⟨x, hx, hp⟩
        omega

/-- C7: the process result is always `0` or `1`; it is `1` exactly when
some file has a record that produced at least one diagnostic, and `0`
exactly when no record of any file produced any. -/
theorem c7_exit_status (files : List (PyNode × Str)) :
    (main files = 0 ∨ main files = 1) ∧
      (main files = 1 ↔
        ∃ f ∈ files, ∃ x ∈ function_definitions f.1 f.2, (x.run_checks).1.errors ≠ []) ∧
      (main files = 0 ↔
        ∀ f ∈ files, ∀ x ∈ function_definitions f.1 f.2, (x.run_checks).1.errors = []) := by
  have hiff :
      (0 < (files.map (fun f => check_docstrings f.1 f.2)).sum) ↔
        ∃ f ∈ files, ∃ x ∈ function_definitions f.1 f.2, (x.run_checks).1.errors ≠ [] := by
    rw [natSum_pos_iff]
    constructor
    · intro ⟨y, hy, hp⟩
      obtain ⟨f, hf, rfl⟩ := List.mem_map.mp hy
      exact ⟨f, hf, (check_docstrings_pos_iff f.1 f.2).mp hp⟩
    · intro ⟨f, hf, hx⟩
      exact ⟨check_docstrings f.1 f.2, List.mem_map.mpr ⟨f, hf, rfl⟩,
        (check_docstrings_pos_iff f.1 f.2).mpr hx⟩
  rw [main]
  split
  · rename_i h
    refine ⟨Or.inr rfl, ⟨fun _ => hiff.mp h, fun _ => rfl⟩, ?_, ?_⟩
    · intro h01
      exact absurd h01 one_ne_zero
    · intro hall
      obtain ⟨f, hf, x, hx, hne⟩ := hiff.mp h
      exact absurd (hall f hf x hx) hne
  · rename_i h
    refine ⟨Or.inl rfl, ⟨fun h01 => absurd h01 zero_ne_one, fun hex => absurd (hiff.mpr hex) h⟩,
      fun _ => ?_, fun _ => rfl⟩
    intro f hf x hx
    by_contra hne
    exact h (hiff.mpr ⟨f, hf, x, hx, hne⟩)

/-- A one-node module whose single definition has the placeholder
docstring `[summary]`. -/
def c7DemoNode : PyNode :=
  .mk .FunctionDef (some 1) (some (str "f")) (some (str "[summary]")) []

/-- Closed instance of C7: an invocation over one bad file exits 1. -/
theorem c7_witness : main [(c7DemoNode, str "p.py")] = 1 := by
  refine (c7_exit_status [(c7DemoNode, str "p.py")]).2.1.mpr ?_
  refine ⟨(c7DemoNode, str "p.py"), by simp, ⟨c7DemoNode, [], str "p.py"⟩, ?_, ?_⟩
  · have hfd : function_definitions c7DemoNode (str "p.py") =
        [⟨c7DemoNode, [], str "p.py"⟩] := rfl
    rw [hfd]
    simp
  · have : ((⟨c7DemoNode, [], str "p.py"⟩ : ParseFunctionDef).run_checks).1.errors =
        [str "default-docstring-error: [summary]"] := rfl
    rw [this]
    simp

/-! ### C1 — what `function_definitions` collects, and in which order -/

lemma PyNode.size_pos (n : PyNode) : 0 < n.size := by
  cases n with
  | mk k l nm d cs =>
    rw [PyNode.size]
    omega

lemma sizeList_eq_sumSize (cs : List PyNode) : sizeList cs = sumSize cs := by
  induction cs with
  | nil => rfl
  | cons n ns ih =>
    rw [sizeList, ih, sumSize, sumSize, List.map_cons, List.sum_cons]

lemma sumSize_eq_zero {q : List PyNode} (h : sumSize q = 0) : q = [] := by
  cases q with
  | nil => rfl
  | cons n rest =>
    rw [sumSize, List.map_cons, List.sum_cons] at h
    have := PyNode.size_pos n
    omega

lemma walkAux_nil (fuel : Nat) : walkAux fuel [] = [] := by
  cases fuel <;> rfl

/-- The fuel of `walkAux` is immaterial once it is at least the total
number of nodes in the queue: the traversal is the complete
breadth-first walk. -/
lemma walkAux_fuel :
    ∀ (f g : Nat) (q : List PyNode), sumSize q ≤ f → f ≤ g → walkAux f q = walkAux g q := by
  intro f
  induction f with
  | zero =>
    intro g q hq _
    rw [sumSize_eq_zero (Nat.le_zero.mp hq), walkAux_nil, walkAux_nil]
  | succ f ih =>
    intro g q hq hfg
    cases q with
    | nil => rw [walkAux_nil, walkAux_nil]
    | cons n rest =>
      cases g with
      | zero => omega
      | succ g' =>
        rw [walkAux, walkAux]
        have hsz : sumSize (rest ++ n.children) ≤ f := by
          have h1 : sumSize (n :: rest) = n.size + sumSize rest := by
            rw [sumSize, List.map_cons, List.sum_cons, sumSize]
          have h2 : sumSize (rest ++ n.children) = sumSize rest + sumSize n.children := by
            rw [sumSize, List.map_append, List.sum_append, sumSize, sumSize]
          have h3 : n.size = 1 + sumSize n.children := by
            cases n with
            | mk k l nm d cs =>
              rw [PyNode.size, sizeList_eq_sumSize]
              rfl
          omega
        rw [ih g' (rest ++ n.children) hsz (by omega)]

/-- C1 (amended): `function_definitions` wraps every node of the
breadth-first walk — definitions and non-definitions alike, with no
filtering by node kind — and returns the records sorted by line
number ascending, a missing line-number attribute being read as 0. -/
theorem c1_collects_all_walked_nodes_sorted (m : PyNode) (p : Str) :
    ((function_definitions m p).map (fun r => r.function_def)).Perm (walk m) ∧
      List.Sorted linenoLe (function_definitions m p) ∧
      (∀ r ∈ function_definitions m p, r.function_def.linenoAttr = none → r.lineno = 0) := by
  refine ⟨?_, ?_, ?_⟩
  · have h1 : (function_definitions m p).Perm ((walk m).map (fun x => ⟨x, [], p⟩)) :=
      List.perm_insertionSort _ _
    have h2 := h1.map (fun r => r.function_def)
    rw [List.map_map] at h2
    have h3 : ((walk m).map ((fun r : ParseFunctionDef => r.function_def) ∘
        (fun x => (⟨x, [], p⟩ : ParseFunctionDef)))) = walk m := by
      have hfun : ((fun r : ParseFunctionDef => r.function_def) ∘
          (fun x => (⟨x, [], p⟩ : ParseFunctionDef))) = fun x => x := by
        funext x
        rfl
      rw [hfun]
      exact List.map_id' (walk m)
    rw [h3] at h2
    exact h2
  · exact List.sorted_insertionSort linenoLe _
  · intro r _ h
    rw [ParseFunctionDef.lineno, h]
    rfl

/-- A module with one plain statement and one function definition:
the walk contains the module node and the statement node as well. -/
def c1Demo : PyNode :=
  .mk .Module none none (some (str "Mod doc.")) [
    .mk .Other (some 2) none none [],
    .mk .FunctionDef (some 5) (some (str "f")) (some (str "ok")) []]

/-- Counterexample to C1 as stated: the collector wraps nodes that are
not function, async function, or class definitions — here the module
node itself (sorted first, line read as 0) and a plain statement
node. -/
theorem c1_counterexample :
    ((function_definitions c1Demo (str "p.py")).map (fun r => r.function_def.kind)) =
        [NodeKind.Module, NodeKind.Other, NodeKind.FunctionDef] ∧
      decide (NodeKind.Module ∈
        [NodeKind.ClassDef, NodeKind.FunctionDef, NodeKind.AsyncFunctionDef]) = false ∧
      decide (NodeKind.Other ∈
        [NodeKind.ClassDef, NodeKind.FunctionDef, NodeKind.AsyncFunctionDef]) = false := by
  refine ⟨rfl, rfl, rfl⟩

/-- Closed instance of C1 (amended), at the same module: the walk is
the module node followed by its two children, the sorted record list
puts the module (line read as 0) first, and its `lineno` is 0. -/
theorem c1_witness :
    ((function_definitions c1Demo (str "p.py")).map (fun r => r.function_def)).Perm
        (walk c1Demo) ∧
      (⟨c1Demo, [], str "p.py"⟩ : ParseFunctionDef).lineno = 0 := by
  refine ⟨(c1_collects_all_walked_nodes_sorted c1Demo (str "p.py")).1, ?_⟩
  exact (c1_collects_all_walked_nodes_sorted c1Demo (str "p.py")).2.2
    ⟨c1Demo, [], str "p.py"⟩
    (by
      have hfd : function_definitions c1Demo (str "p.py") =
          [⟨c1Demo, [], str "p.py"⟩,
            ⟨.mk .Other (some 2) none none [], [], str "p.py"⟩,
            ⟨.mk .FunctionDef (some 5) (some (str "f")) (some (str "ok")) [], [],
              str "p.py"⟩] := rfl
      rw [hfd]
      simp)
    rfl

/-! ### C4 — anchoring of the field patterns

The table's patterns all start with a literal `:`, so `re.match`
(which anchors at the start of the string) rejects any indented line,
and `check_newlines` — whose combined pattern places the field
alternatives directly after `\n` — only recognises column-zero
fields.  `check_empty_fields`, however, scans with `re.findall`,
which is **not** anchored: it finds the field pattern mid-line, so an
indented empty field line IS flagged. -/

lemma lineTail_cons_of_ne {c : Char} (s : Str) (hc : c ≠ '\n') :
    lineTail (c :: s) = c :: lineTail s := by
  simp [lineTail, List.takeWhile_cons, hc]

lemma findallEF_indented :
    ∀ w : Str, (∀ c ∈ w, c = ' ' ∨ c = '\t') →
      findallEF (w ++ str ":returns:") = [str ":returns:"] := by
  intro w
  induction w with
  | nil => intro _; rfl
  | cons c w' ih =>
    intro h
    have hc : c = ' ' ∨ c = '\t' := h c (by simp)
    have hcn : c ≠ '\n' := by rcases hc with rfl | rfl <;> simp
    have hcc : c ≠ ':' := by rcases hc with rfl | rfl <;> simp
    have htry : efTry (c :: (w' ++ str ":returns:")) = none := by
      rw [efTry, lineTail_cons_of_ne _ hcn, efCoreOk_eq_false _ hcc]
      rfl
    rw [List.cons_append, findallEF, reScan, htry]
    exact ih (fun x hx => h x (by simp [hx]))

/-- C4 (amended): anchored matching (`re.match`, as the repository's
tests exercise the table) rejects a field line indented by any
whitespace, and the missing-newline rule only recognises a field
opening at column zero right after the newline; but the empty-field
check scans unanchored, and an indented empty field line IS flagged
with a `missing-description-error` (whose detail starts at the tag,
without the indentation). -/
theorem c4_anchoring (t : Tag) (c : Char) (line t' : Str) (hw : isWS c = true) :
    reMatch t (c :: line) = false ∧
      opensField (c :: t') = false ∧
      (∀ w : Str, w ≠ [] → (∀ x ∈ w, x = ' ' ∨ x = '\t') →
        check_empty_fields (w ++ str ":returns:") [] =
          [str "missing-description-error: :returns:"]) := by
  refine ⟨reMatch_eq_false line (allWS_not_colon hw), ?_, ?_⟩
  · apply opensField_eq_false
    by_cases hcn : c = '\n'
    · subst hcn
      have : lineTail ('\n' :: t') = [] := rfl
      rw [this]
      simp
    · rw [lineTail_cons_of_ne _ hcn]
      simp only [List.head?_cons, Option.some.injEq, Ne]
      exact allWS_not_colon hw
  · intro w _ hws
    rw [check_empty_fields_eq, emptyFieldsExtra, findallEF_indented w hws]
    rfl

/-- Counterexample to C4 as stated: the line `"  :returns:"` is not
recognised by the anchored pattern (`re.match` fails on it), yet the
empty-field check emits a `missing-description-error` for it. -/
theorem c4_counterexample :
    reMatch Tag.returns (str "  :returns:") = false ∧
      check_empty_fields (str "  :returns:") [] =
        [str "missing-description-error: :returns:"] := ⟨rfl, rfl⟩

/-- Closed instance of C4 (amended) at a single-space indentation. -/
theorem c4_witness :
    reMatch Tag.returns (' ' :: str ":returns:") = false ∧
      opensField (' ' :: str ":returns:") = false ∧
      check_empty_fields ([' '] ++ str ":returns:") [] =
        [str "missing-description-error: :returns:"] := by
  obtain ⟨h1, h2, h3⟩ := c4_anchoring Tag.returns ' ' (str ":returns:") (str ":returns:")
    (by decide)
  exact ⟨h1, h2, h3 [' '] (by simp) (by decide)⟩

/-! ### C5 — the missing-newline rule, line by line

`firstNLFlat` (the flat scan of `.*\n(?:…)`) is shown equal to
`firstNLPair` on the line decomposition: the match found is the first
adjacent pair of lines whose second member opens a field at column
zero.  In particular at most one diagnostic is ever produced, the
first field line of the text itself (line 0) has no preceding line and
is skipped, and later violations are ignored. -/

lemma firstNLFlat_nlfree {s : Str} (h : NLFree s) : firstNLFlat s = none := by
  induction s with
  | nil => rfl
  | cons c cs ih =>
    have hd : (c :: cs).drop (lineTail (c :: cs)).length = [] := by
      rw [lineTail_eq_self h]
      simp
    rw [firstNLFlat, hd]
    exact ih (fun x hx => h x (by simp [hx]))

lemma firstNLFlat_line :
    ∀ (ℓ Y : Str), NLFree ℓ →
      firstNLFlat (ℓ ++ '\n' :: Y) =
        if opensField Y then some (ℓ, lineTail Y) else firstNLFlat Y := by
  intro ℓ
  induction ℓ with
  | nil =>
    intro Y _
    have hl : lineTail ('\n' :: Y) = [] := rfl
    rw [List.nil_append, firstNLFlat, hl]
    simp only [List.length_nil, List.drop_zero]
  | cons c ℓ' ih =>
    intro Y h
    have hnl : NLFree (c :: ℓ') := h
    have hd2 : (c :: (ℓ' ++ '\n' :: Y)).drop (lineTail (c :: (ℓ' ++ '\n' :: Y))).length =
        '\n' :: Y := by
      have := drop_lineTail_append hnl (Or.inr ⟨Y, rfl⟩)
      simpa using this
    have hl2 : lineTail (c :: (ℓ' ++ '\n' :: Y)) = c :: ℓ' := by
      have := lineTail_append_newline hnl (r := Y)
      simpa using this
    rw [List.cons_append, firstNLFlat, hd2, hl2]
    split
    · rename_i t heq
      injection heq with _ ht
      subst ht
      by_cases ho : opensField Y
      · rw [if_pos ho, if_pos ho]
      · rw [if_neg ho, if_neg ho]
        have := ih Y (fun x hx => h x (by simp [hx]))
        rw [this, if_neg ho]
    · rename_i hne
      exact (hne Y rfl).elim

lemma lineTail_joinLines {ℓ : Str} {ls : List Str} (h : NLFree ℓ)
    (hls : ∀ x ∈ ls, NLFree x) : lineTail (joinLines (ℓ :: ls)) = ℓ := by
  cases ls with
  | nil => rw [joinLines]; exact lineTail_eq_self h
  | cons a l =>
    rw [joinLines_cons, if_neg (by simp)]
    exact lineTail_append_newline h

lemma opensField_of_lineTail {X Y : Str} (h : lineTail X = lineTail Y) :
    opensField X = opensField Y := by
  rw [opensField, opensField, h]

lemma firstNLFlat_eq_firstNLPair :
    ∀ ls : List Str, (∀ ℓ ∈ ls, NLFree ℓ) →
      firstNLFlat (joinLines ls) = firstNLPair ls := by
  intro ls
  induction ls with
  | nil => intro _; rfl
  | cons ℓ₀ rest ih =>
    intro h
    cases rest with
    | nil =>
      rw [joinLines, firstNLFlat_nlfree (h ℓ₀ (by simp))]
      rfl
    | cons ℓ₁ rest' =>
      rw [joinLines_cons, if_neg (by simp)]
      rw [firstNLFlat_line ℓ₀ _ (h ℓ₀ (by simp))]
      have hl1 : lineTail (joinLines (ℓ₁ :: rest')) = ℓ₁ :=
        lineTail_joinLines (h ℓ₁ (by simp)) (fun x hx => h x (by simp [hx]))
      have hopen : opensField (joinLines (ℓ₁ :: rest')) = opensField ℓ₁ := by
        apply opensField_of_lineTail
        rw [hl1, lineTail_eq_self (h ℓ₁ (by simp))]
      rw [hopen, hl1]
      rw [firstNLPair]
      by_cases ho : opensField ℓ₁
      · rw [if_pos ho, if_pos ho]
      · rw [if_neg ho, if_neg ho]
        exact ih (fun x hx => h x (by simp [hx]))

lemma firstNLFlat_splitLines (d : Str) :
    firstNLFlat d = firstNLPair (splitLines d) := by
  have h := firstNLFlat_eq_firstNLPair (splitLines d) (splitLines_nlFree d)
  rw [joinLines_splitLines] at h
  exact h

/-- C5 (amended): the missing-newline check emits at most one
diagnostic; it considers only the first adjacent pair of lines whose
second line opens a recognised field (so a field on the very first
line of the text has no pair of its own and is skipped — but a later
field line can still produce the one diagnostic), emits exactly one
`missing-newline-error` naming that field line when the preceding line
is non-blank after trimming, and emits nothing when that preceding
line is blank, when no line after the first opens a field, or for any
violation after the first. -/
theorem c5_first_pair_only (d : Str) (errs : List Str) :
    check_newlines d errs =
      errs ++ (match firstNLPair (splitLines d) with
        | none => []
        | some (p, f) =>
          if pyStrip p ≠ [] then
            [str "missing-newline-error: '" ++ f ++ str "' needs newline before"]
          else []) ∧
      (check_newlines d errs).length ≤ errs.length + 1 := by
  have h1 : check_newlines d errs =
      errs ++ (match firstNLPair (splitLines d) with
        | none => []
        | some (p, f) =>
          if pyStrip p ≠ [] then
            [str "missing-newline-error: '" ++ f ++ str "' needs newline before"]
          else []) := by
    rw [check_newlines_eq, newlinesExtra.eq_def, firstNLFlat_splitLines]
  refine ⟨h1, ?_⟩
  rw [h1, List.length_append]
  cases firstNLPair (splitLines d) with
  | none => simp
  | some pr =>
    cases pr with
    | mk p f =>
      dsimp only
      split
      · simp
      · simp

/-- Counterexample to C5 as stated: in
`":returns: r\nfoo\n:rtype: i"` the very first line of the text opens
a recognised field, yet the rule still emits one diagnostic — for the
later pair `("foo", ":rtype: i")` — where the claim reads that nothing
is emitted when the first recognised field line is the very first
line. -/
theorem c5_counterexample :
    opensField (str ":returns: r") = true ∧
      check_newlines (str ":returns: r\nfoo\n:rtype: i") [] =
        [str "missing-newline-error: ':rtype: i' needs newline before"] := ⟨rfl, rfl⟩

/-- Closed instance of C5 (amended) at one of the spec's scenarios. -/
theorem c5_witness :
    check_newlines (str "Missing newline before\n:yield: yields") [] =
      [str "missing-newline-error: ':yield: yields' needs newline before"] := by
  rw [(c5_first_pair_only (str "Missing newline before\n:yield: yields") []).1]
  rfl

/-! ### C3 — the placeholder-default rule

`[summary]` is a literal search: one diagnostic per occurrence
(`occCount` below counts occurrences; the literal cannot overlap
itself, so findall's non-overlapping scan sees every one).  For
`:.*: *\[description\]` / `:.*: *\[type\]` a match runs from an outer
colon to the closing bracket of the placeholder — whatever follows on
the line: a field line with extra text after the placeholder IS
flagged, contrary to the claim. -/

/-- Number of positions at which `lit` occurs in the text. -/
def occCount (lit : Str) : Str → Nat
  | [] => 0
  | c :: cs => (if lit.isPrefixOf (c :: cs) then 1 else 0) + occCount lit cs

lemma isPrefixOf_false_of_head {a x : Char} {lr u : Str} (hx : x ≠ a) :
    (a :: lr).isPrefixOf (x :: u) = false := by
  have h : (a :: lr).isPrefixOf (x :: u) = (a == x && lr.isPrefixOf u) := rfl
  rw [h]
  have : (a == x) = false := by
    rw [beq_eq_false_iff_ne]
    exact fun he => hx he.symm
  rw [this, Bool.false_and]

lemma occCount_append_of_no_head {lit : Str} {a : Char} {lr : Str}
    (hlit : lit = a :: lr) :
    ∀ (u t : Str), (∀ c ∈ u, c ≠ a) → occCount lit (u ++ t) = occCount lit t := by
  intro u
  induction u with
  | nil => intro t _; rfl
  | cons x u' ih =>
    intro t h
    rw [List.cons_append, occCount, hlit,
      isPrefixOf_false_of_head (h x (by simp)), if_neg (by simp), ← hlit]
    rw [Nat.zero_add]
    exact ih t (fun c hc => h c (by simp [hc]))

lemma occCount_lit_append {a : Char} {lr : Str} (ha : a ∉ lr) (t : Str) :
    occCount (a :: lr) ((a :: lr) ++ t) = 1 + occCount (a :: lr) t := by
  rw [List.cons_append, occCount]
  have hpre : (a :: lr).isPrefixOf (a :: (lr ++ t)) = true := by
    rw [List.isPrefixOf_iff_prefix]
    exact ⟨t, by simp⟩
  rw [if_pos hpre]
  rw [occCount_append_of_no_head rfl lr t
    (fun c hc he => ha (by rw [← he]; exact hc))]

lemma findallLit_spec_aux {a : Char} {lr : Str} (ha : a ∉ lr) :
    ∀ (N : Nat) (s : Str), s.length ≤ N →
      (findallLit (a :: lr) s).length = occCount (a :: lr) s ∧
        ∀ m ∈ findallLit (a :: lr) s, m = a :: lr := by
  intro N
  induction N with
  | zero =>
    intro s hs
    rw [List.length_eq_zero.mp (Nat.le_zero.mp hs)]
    exact ⟨rfl, by intro m hm; simp [findallLit, reScan] at hm⟩
  | succ N ih =>
    intro s hs
    cases s with
    | nil => exact ⟨rfl, by intro m hm; simp [findallLit, reScan] at hm⟩
    | cons c cs =>
      cases hp : tryLit (a :: lr) (c :: cs) with
      | none =>
        have hpre : (a :: lr).isPrefixOf (c :: cs) = false := by
          rw [tryLit] at hp
          by_contra hne
          rw [Bool.not_eq_false] at hne
          rw [if_pos hne] at hp
          simp at hp
        have hscan0 : reScan (tryLit (a :: lr)) 0 (c :: cs) =
            reScan (tryLit (a :: lr)) 0 cs := by
          rw [reScan, hp]
        have hih := ih cs (by simp only [List.length_cons] at hs; omega)
        rw [findallLit, hscan0, occCount, hpre]
        simp only [Bool.false_eq_true, if_false, Nat.zero_add]
        exact hih
      | some n =>
        have hpre : (a :: lr).isPrefixOf (c :: cs) = true ∧ n = (a :: lr).length := by
          rw [tryLit] at hp
          by_cases hb : (a :: lr).isPrefixOf (c :: cs) = true
          · rw [if_pos hb] at hp
            exact ⟨hb, by injection hp with h'; exact h'.symm⟩
          · rw [if_neg hb] at hp; simp at hp
        obtain ⟨t, ht⟩ : ∃ t, (a :: lr) ++ t = c :: cs :=
          List.isPrefixOf_iff_prefix.mp hpre.1
        have htake : (c :: cs).take n = a :: lr := by
          rw [hpre.2, ← ht, List.take_left]
        have hdrop : cs.drop (n - 1) = t := by
          have h1 : (c :: cs).drop n = t := by
            rw [hpre.2, ← ht, List.drop_left]
          have hn : n = (a :: lr).length := hpre.2
          cases hn' : n with
          | zero => rw [hn'] at hn; simp at hn
          | succ k =>
            rw [hn', List.drop_succ_cons] at h1
            simpa using h1
        have hscan1 : reScan (tryLit (a :: lr)) 0 (c :: cs) =
            (c :: cs).take n :: reScan (tryLit (a :: lr)) (n - 1) cs := by
          rw [reScan, hp]
        rw [findallLit, hscan1, reScan_skip, hdrop, htake]
        have hocc : occCount (a :: lr) (c :: cs) = 1 + occCount (a :: lr) t := by
          rw [← ht]
          exact occCount_lit_append ha t
        have hlen : t.length ≤ N := by
          have hlen2 : (c :: cs).length = (a :: lr).length + t.length := by
            rw [← ht, List.length_append]
          simp only [List.length_cons] at hlen2 hs
          omega
        obtain ⟨ihl, ihm⟩ := ih t hlen
        constructor
        · rw [List.length_cons, hocc, ← ihl, findallLit]
          omega
        · intro m hm
          rcases List.mem_cons.mp hm with rfl | hm'
          · rfl
          · exact ihm m hm'

/-- `[summary]` as head and tail; the head character does not recur in
the tail, so occurrences cannot overlap. -/
lemma summary_shape : str "[summary]" = '[' :: str "summary]" ∧ '[' ∉ str "summary]" := by
  constructor
  · rfl
  · decide

lemma findallLit_summary_spec (s : Str) :
    (findallLit (str "[summary]") s).length = occCount (str "[summary]") s ∧
      ∀ m ∈ findallLit (str "[summary]") s, m = str "[summary]" := by
  have h := @findallLit_spec_aux '[' (str "summary]")
    summary_shape.2 s.length s le_rfl
  rw [← summary_shape.1] at h
  exact h

lemma take_length_takeWhile (p : Char → Bool) (l : Str) :
    l.take (l.takeWhile p).length = l.takeWhile p := by
  induction l with
  | nil => rfl
  | cons c cs ih =>
    rw [List.takeWhile_cons]
    cases hp : p c
    · simp
    · simp only [if_true, List.length_cons, List.take_succ_cons, ih]

lemma takeWhile_all_append {p : Char → Bool} {u : Str} (v : Str)
    (h : ∀ c ∈ u, p c = true) : (u ++ v).takeWhile p = u ++ v.takeWhile p :=
  List.takeWhile_append_of_pos h

lemma lastPlaceholder_decomp {lit : Str} :
    ∀ (t : Str) (L : Nat), lastPlaceholder lit t = some L →
      L ≤ t.length ∧
        ∃ mid sp, t.take L = mid ++ ':' :: (sp ++ lit) ∧ (∀ c ∈ sp, c = ' ') := by
  intro t
  induction t with
  | nil => intro L h; simp [lastPlaceholder] at h
  | cons c cs ih =>
    intro L h
    rw [lastPlaceholder] at h
    cases hrec : lastPlaceholder lit cs with
    | some n =>
      rw [hrec] at h
      injection h with hL
      obtain ⟨hle, mid, sp, htake, hsp⟩ := ih n hrec
      refine ⟨by simp only [List.length_cons]; omega, c :: mid, sp, ?_, hsp⟩
      rw [← hL, List.take_succ_cons, htake]
      rfl
    | none =>
      rw [hrec] at h
      by_cases hc : c = ':'
      · rw [if_pos hc] at h
        cases hsp : spacesThen lit cs with
        | none => rw [hsp] at h; simp at h
        | some k =>
          rw [hsp] at h
          have hL : 1 + k = L := by simpa using h
          rw [spacesThen] at hsp
          by_cases hpre : lit.isPrefixOf (cs.drop (cs.takeWhile (fun x => x = ' ')).length) = true
          · rw [if_pos hpre] at hsp
            have hk : (cs.takeWhile (fun x => x = ' ')).length + lit.length = k := by
              simpa using hsp
            obtain ⟨t', ht'⟩ :
                ∃ t', lit ++ t' = cs.drop (cs.takeWhile (fun x => x = ' ')).length :=
              List.isPrefixOf_iff_prefix.mp hpre
            have hlenD :
                lit.length ≤ (cs.drop (cs.takeWhile (fun x => x = ' ')).length).length := by
              rw [← ht', List.length_append]
              omega
            have hk' : k ≤ cs.length := by
              have h1 := List.length_drop ((cs.takeWhile (fun x => x = ' ')).length) cs
              have h2 : (cs.takeWhile (fun x => x = ' ')).length ≤ cs.length :=
                List.IsPrefix.length_le (List.takeWhile_prefix _)
              omega
            refine ⟨by simp only [List.length_cons]; omega, [],
              cs.takeWhile (fun x => x = ' '), ?_, ?_⟩
            · rw [← hL, Nat.add_comm 1 k, List.take_succ_cons, ← hk, List.take_add,
                take_length_takeWhile, ← ht', List.take_left, hc]
              rfl
            · intro x hx
              have := List.mem_takeWhile_imp hx
              simpa using this
          · rw [if_neg hpre] at hsp
            simp at hsp
      · rw [if_neg hc] at h
        simp at h

lemma tryPlaceholder_decomp {lit s : Str} {n : Nat}
    (h : tryPlaceholder lit s = some n) :
    ∃ mid sp, s.take n = ':' :: (mid ++ ':' :: (sp ++ lit)) ∧ (∀ c ∈ sp, c = ' ') := by
  cases s with
  | nil => simp [tryPlaceholder] at h
  | cons c rest =>
    rw [tryPlaceholder.eq_def] at h
    split at h
    · rename_i rest2 heq
      injection heq with hc hrest
      subst hrest
      cases hL : lastPlaceholder lit (lineTail rest) with
      | none => rw [hL] at h; simp at h
      | some L =>
        rw [hL] at h
        have hn : 1 + L = n := by simpa using h
        obtain ⟨hle, mid, sp, htake, hsp⟩ := lastPlaceholder_decomp (lineTail rest) L hL
        obtain ⟨z, hz⟩ := List.takeWhile_prefix (l := rest) (p := fun x => decide (x ≠ '\n'))
        have htake2 : rest.take L = mid ++ ':' :: (sp ++ lit) := by
          rw [← hz, List.take_append_of_le_length]
          · exact htake
          · exact hle
        subst hc
        refine ⟨mid, sp, ?_, hsp⟩
        rw [← hn, Nat.add_comm 1 L, List.take_succ_cons, htake2]
    · simp at h

lemma mem_findallPlaceholder_decomp {lit d : Str} :
    ∀ m ∈ findallPlaceholder lit d,
      ∃ mid sp, m = ':' :: (mid ++ ':' :: (sp ++ lit)) ∧ (∀ c ∈ sp, c = ' ') := by
  intro m hm
  obtain ⟨v, n, _, hf, hmv⟩ := reScan_mem (tryPlaceholder lit) d m hm
  obtain ⟨mid, sp, htake, hsp⟩ := tryPlaceholder_decomp hf
  exact ⟨mid, sp, by rw [hmv, htake], hsp⟩

lemma lastPlaceholder_isSome {lit lr : Str} (hlit : lit = '[' :: lr) :
    ∀ (mid sp w : Str), (∀ c ∈ sp, c = ' ') →
      (lastPlaceholder lit (mid ++ ':' :: (sp ++ (lit ++ w)))).isSome = true := by
  intro mid
  induction mid with
  | nil =>
    intro sp w hsp
    rw [List.nil_append, lastPlaceholder]
    cases hrec : lastPlaceholder lit (sp ++ (lit ++ w)) with
    | some n => simp
    | none =>
      rw [if_pos rfl]
      have hTW : (sp ++ (lit ++ w)).takeWhile (fun x => x = ' ') = sp := by
        rw [takeWhile_all_append (lit ++ w) (fun c hc => by simp [hsp c hc])]
        rw [hlit, List.cons_append, List.takeWhile_cons]
        simp
      have hPre : lit.isPrefixOf ((sp ++ (lit ++ w)).drop ((sp ++ (lit ++ w)).takeWhile
          (fun x => x = ' ')).length) = true := by
        rw [hTW, List.drop_left, List.isPrefixOf_iff_prefix]
        exact ⟨w, rfl⟩
      rw [spacesThen, if_pos hPre]
      simp
  | cons m mid' ih =>
    intro sp w hsp
    rw [List.cons_append, lastPlaceholder]
    cases hrec : lastPlaceholder lit (mid' ++ ':' :: (sp ++ (lit ++ w))) with
    | some n => simp
    | none =>
      have hih := ih sp w hsp
      rw [hrec] at hih
      simp at hih

lemma tryPlaceholder_isSome {lit lr : Str} (hlit : lit = '[' :: lr)
    (hnl : NLFree lit) (mid sp post : Str) (hmid : NLFree mid)
    (hsp : ∀ c ∈ sp, c = ' ') :
    (tryPlaceholder lit (':' :: (mid ++ ':' :: (sp ++ (lit ++ post))))).isSome = true := by
  have hlineTail : lineTail (mid ++ ':' :: (sp ++ (lit ++ post))) =
      mid ++ ':' :: (sp ++ (lit ++ lineTail post)) := by
    rw [lineTail]
    rw [takeWhile_all_append _ (fun c hc => by simpa using hmid c hc)]
    rw [List.takeWhile_cons]
    simp only [show (decide ((':' : Char) ≠ '\n')) = true from rfl, if_true]
    rw [takeWhile_all_append _ (fun c hc => by simp [hsp c hc])]
    rw [takeWhile_all_append _ (fun c hc => by simpa using hnl c hc)]
    rfl
  rw [tryPlaceholder, hlineTail]
  have h := lastPlaceholder_isSome hlit mid sp (lineTail post) hsp
  cases hrec : lastPlaceholder lit (mid ++ ':' :: (sp ++ (lit ++ lineTail post))) with
  | some n => simp
  | none => rw [hrec] at h; simp at h

lemma findallPlaceholder_ne_nil {lit lr : Str} (hlit : lit = '[' :: lr)
    (hnl : NLFree lit) (pre mid sp post : Str) (hmid : NLFree mid)
    (hsp : ∀ c ∈ sp, c = ' ') :
    findallPlaceholder lit (pre ++ ':' :: (mid ++ ':' :: (sp ++ (lit ++ post)))) ≠ [] := by
  apply reScan_ne_nil
  · rw [tryPlaceholder_isSome hlit hnl mid sp post hmid hsp]
  · simp

/-- C3 (amended): `check_defaults` appends one `default-docstring-error`
per regex match.  The `[summary]` search flags every occurrence of the
literal, each as its own diagnostic with the literal as detail.  Each
`[description]`/`[type]` match runs from a colon, over arbitrary
characters of the line, to a colon, spaces and the placeholder — so
the detail ends at the placeholder.  A field line is flagged whenever
it contains such a colon-colon-placeholder pattern, regardless of any
further (including non-whitespace) text after the placeholder. -/
theorem c3_placeholder_flagging (d : Str) (errs : List Str) :
    (check_defaults d errs = errs ++ defaultsExtra d) ∧
      ((findallLit (str "[summary]") d).length = occCount (str "[summary]") d ∧
        ∀ m ∈ findallLit (str "[summary]") d, m = str "[summary]") ∧
      (∀ m ∈ findallPlaceholder (str "[description]") d,
        ∃ mid sp, m = ':' :: (mid ++ ':' :: (sp ++ str "[description]")) ∧
          ∀ c ∈ sp, c = ' ') ∧
      (∀ m ∈ findallPlaceholder (str "[type]") d,
        ∃ mid sp, m = ':' :: (mid ++ ':' :: (sp ++ str "[type]")) ∧
          ∀ c ∈ sp, c = ' ') ∧
      (∀ pre mid sp post, NLFree mid → (∀ c ∈ sp, c = ' ') →
        d = pre ++ ':' :: (mid ++ ':' :: (sp ++ (str "[description]" ++ post))) →
        findallPlaceholder (str "[description]") d ≠ []) ∧
      (∀ pre mid sp post, NLFree mid → (∀ c ∈ sp, c = ' ') →
        d = pre ++ ':' :: (mid ++ ':' :: (sp ++ (str "[type]" ++ post))) →
        findallPlaceholder (str "[type]") d ≠ []) := by
  refine ⟨check_defaults_eq d errs, findallLit_summary_spec d,
    mem_findallPlaceholder_decomp, mem_findallPlaceholder_decomp, ?_, ?_⟩
  · intro pre mid sp post hmid hsp hd
    rw [hd]
    exact findallPlaceholder_ne_nil rfl (by decide) pre mid sp post hmid hsp
  · intro pre mid sp post hmid hsp hd
    rw [hd]
    exact findallPlaceholder_ne_nil rfl (by decide) pre mid sp post hmid hsp

/-- Counterexample to C3 as stated: a field line with additional
non-whitespace text after the `[description]` placeholder IS flagged —
the match simply stops at the closing bracket. -/
theorem c3_counterexample :
    check_defaults (str ":param x: [description] oops") [] =
      [str "default-docstring-error: :param x: [description]"] := rfl

/-- Closed instance of C3 (amended): the summary count on a text with
two occurrences, and the flagged trailing-text field line. -/
theorem c3_witness :
    ((findallLit (str "[summary]") (str "[summary] and [summary]")).length =
        occCount (str "[summary]") (str "[summary] and [summary]")) ∧
      findallPlaceholder (str "[description]") (str ":param x: [description] oops") ≠ [] := by
  refine ⟨(c3_placeholder_flagging (str "[summary] and [summary]") []).2.1.1, ?_⟩
  exact (c3_placeholder_flagging (str ":param x: [description] oops") []).2.2.2.2.1
    [] (str "param x") (str " ") (str " oops") (by decide) (by decide) (by decide)

/-! ### C6 — the empty-field scan, line by line

The flat `findallEF` scan is now related to the per-line account
`perLineEF`: every line containing a `PAT\\s*$` match (at its leftmost
position) produces exactly one finding, whose text is the matched
suffix of the line extended by the greedy `\\s*` across any immediately
following all-whitespace lines. -/

lemma takeWhile_all {p : Char → Bool} {u : Str} (h : ∀ c ∈ u, p c = true) :
    u.takeWhile p = u := by
  have h2 := takeWhile_all_append (p := p) (u := u) [] h
  simpa using h2

lemma takeWhile_stop {p : Char → Bool} {u : Str} (z : Str)
    (h : ∃ c ∈ u, p c = false) : (u ++ z).takeWhile p = u.takeWhile p := by
  induction u with
  | nil =>
    obtain ⟨c, hc, _⟩ := h
    simp at hc
  | cons x u2 ih =>
    rw [List.cons_append, List.takeWhile_cons, List.takeWhile_cons]
    cases hx : p x
    · rfl
    · obtain ⟨c, hc, hpc⟩ := h
      rcases List.mem_cons.mp hc with rfl | hc2
      · rw [hx] at hpc
        cases hpc
      · rw [ih ⟨c, hc2, hpc⟩]

lemma lastNLIdx_append {u v : Str} (hv : NLFree v) :
    lastNLIdx (u ++ '\n' :: v) = u.length := by
  rw [lastNLIdx]
  have hrev : (u ++ '\n' :: v).reverse = v.reverse ++ '\n' :: u.reverse := by
    rw [List.reverse_append, List.reverse_cons, List.append_assoc]
    rfl
  have htw : (v.reverse ++ '\n' :: u.reverse).takeWhile (fun c => decide (c ≠ '\n')) =
      v.reverse := by
    rw [takeWhile_all_append ('\n' :: u.reverse)
      (fun c hc => by simpa using hv c (List.mem_reverse.mp hc))]
    rw [List.takeWhile_cons]
    simp
  rw [hrev, htw]
  simp only [List.length_append, List.length_cons, List.length_reverse]
  omega

lemma glueNL_cons (b : Str) (bs : List Str) :
    glueNL (b :: bs) = '\n' :: (b ++ glueNL bs) := by
  simp [glueNL]

lemma glue_decomp : ∀ (bs tail : List Str), tail ≠ [] →
    '\n' :: joinLines (bs ++ tail) = glueNL bs ++ '\n' :: joinLines tail := by
  intro bs
  induction bs with
  | nil =>
    intro tail _
    simp [glueNL]
  | cons b bs2 ih =>
    intro tail ht
    have hne : bs2 ++ tail ≠ [] := by
      intro h0
      exact ht (List.append_eq_nil.mp h0).2
    rw [List.cons_append, joinLines_cons, if_neg hne, glueNL_cons]
    have hih := ih tail ht
    rw [List.cons_append, List.append_assoc, ← hih]

lemma lineEFMatch_suffix : ∀ {ℓ m : Str}, lineEFMatch ℓ = some m → m <:+ ℓ := by
  intro ℓ
  induction ℓ with
  | nil => intro m h; simp [lineEFMatch] at h
  | cons c cs ih =>
    intro m h
    rw [lineEFMatch] at h
    split at h
    · injection h with h2
      rw [← h2]
    · exact (ih h).trans (List.suffix_cons c cs)

lemma lineEFMatch_allWS {b : Str} (h : AllWS b) : lineEFMatch b = none := by
  induction b with
  | nil => rfl
  | cons c cs ih =>
    rw [lineEFMatch,
      efCoreOk_eq_false cs (allWS_not_colon (h c (by simp))), if_neg (by simp)]
    exact ih (fun x hx => h x (by simp [hx]))

lemma perLineEF_blanks : ∀ (bs ls2 : List Str), (∀ b ∈ bs, AllWS b) →
    perLineEF (bs ++ ls2) = perLineEF ls2 := by
  intro bs
  induction bs with
  | nil => intro ls2 _; rfl
  | cons b bs2 ih =>
    intro ls2 h
    rw [List.cons_append, perLineEF, lineEFMatch_allWS (h b (by simp))]
    exact ih ls2 (fun x hx => h x (by simp [hx]))

lemma reScan_cons_some {f : Str → Option Nat} {c : Char} {cs : Str} {n : Nat}
    (h : f (c :: cs) = some n) (hn : 1 ≤ n) :
    reScan f 0 (c :: cs) = (c :: cs).take n :: reScan f 0 ((c :: cs).drop n) := by
  cases n with
  | zero => omega
  | succ k =>
    have h1 : reScan f 0 (c :: cs) = (c :: cs).take (k + 1) :: reScan f k cs := by
      rw [reScan, h]
      rfl
    rw [h1, reScan_skip, List.drop_succ_cons]

lemma reScan_cons_none {f : Str → Option Nat} {c : Char} {cs : Str}
    (h : f (c :: cs) = none) : reScan f 0 (c :: cs) = reScan f 0 cs := by
  rw [reScan, h]

lemma efScan_newline (t : Str) : reScan efTry 0 ('\n' :: t) = reScan efTry 0 t := by
  have h : efTry ('\n' :: t) = none := by
    rw [efTry]
    have h0 : lineTail ('\n' :: t) = [] := rfl
    rw [h0, efCoreOk_nil]
    rfl
  exact reScan_cons_none h

lemma efMatchLen_eq (s : Str) :
    efMatchLen s =
      (if ((s.drop (lineTail s).length).takeWhile isWS).length
          = (s.drop (lineTail s).length).length then s.length
        else (lineTail s).length +
          lastNLIdx ((s.drop (lineTail s).length).takeWhile isWS)) := rfl

lemma efTry_pos {m X : Str} (hok : efCoreOk m = true) (hm : NLFree m)
    (hX : X = [] ∨ ∃ t, X = '\n' :: t) :
    efTry (m ++ X) = some (efMatchLen (m ++ X)) := by
  rw [efTry, lineTail_append_of_shape hm hX, hok]
  rfl

lemma efMatchLen_all {m Y : Str} (hm : NLFree m) (hY : AllWS Y)
    (hsh : Y = [] ∨ ∃ t, Y = '\n' :: t) :
    efMatchLen (m ++ Y) = (m ++ Y).length := by
  rw [efMatchLen_eq, lineTail_append_of_shape hm hsh, List.drop_left,
    takeWhile_all (p := isWS) (u := Y) hY, if_pos rfl]

lemma efScan_line : ∀ (ℓ X : Str), NLFree ℓ → (X = [] ∨ ∃ t, X = '\n' :: t) →
    (lineEFMatch ℓ = none → reScan efTry 0 (ℓ ++ X) = reScan efTry 0 X) ∧
      (∀ m, lineEFMatch ℓ = some m →
        reScan efTry 0 (ℓ ++ X) = reScan efTry 0 (m ++ X) ∧ efCoreOk m = true ∧ m ≠ []) := by
  intro ℓ
  induction ℓ with
  | nil =>
    intro X _ _
    exact ⟨fun _ => by rw [List.nil_append],
      fun m hm => by simp [lineEFMatch] at hm⟩
  | cons c cs ih =>
    intro X h hX
    by_cases hok : efCoreOk (c :: cs) = true
    · constructor
      · intro hnone
        rw [lineEFMatch, if_pos hok] at hnone
        cases hnone
      · intro m hm
        rw [lineEFMatch, if_pos hok] at hm
        injection hm with hm2
        rw [← hm2]
        exact ⟨rfl, hok, by simp⟩
    · have hof : efCoreOk (c :: cs) = false := by rwa [Bool.not_eq_true] at hok
      have htry : efTry (c :: (cs ++ X)) = none := by
        have hlt : lineTail (c :: (cs ++ X)) = c :: cs := by
          have h2 := lineTail_append_of_shape (ℓ := c :: cs) h hX
          simpa using h2
        rw [efTry, hlt, hof]
        rfl
      have hstep : reScan efTry 0 ((c :: cs) ++ X) = reScan efTry 0 (cs ++ X) := by
        rw [List.cons_append]
        exact reScan_cons_none htry
      have hih := ih X (fun x hx => h x (by simp [hx])) hX
      constructor
      · intro hnone
        rw [lineEFMatch, if_neg hok] at hnone
        rw [hstep]
        exact hih.1 hnone
      · intro m hm
        rw [lineEFMatch, if_neg hok] at hm
        rw [hstep]
        exact hih.2 m hm

lemma efScan_match_all {m Y : Str} (hok : efCoreOk m = true) (hm : m ≠ [])
    (hnl : NLFree m) (hY : AllWS Y) (hsh : Y = [] ∨ ∃ t, Y = '\n' :: t) :
    reScan efTry 0 (m ++ Y) = [m ++ Y] := by
  cases m with
  | nil => exact absurd rfl hm
  | cons c cs =>
    have htry0 := efTry_pos (m := c :: cs) (X := Y) hok hnl hsh
    rw [efMatchLen_all hnl hY hsh] at htry0
    have htry : efTry (c :: (cs ++ Y)) = some ((c :: (cs ++ Y)).length) := by
      simpa using htry0
    have hstep := reScan_cons_some htry (by simp only [List.length_cons]; omega)
    rw [List.cons_append, hstep, List.take_length, List.drop_length]
    rfl

lemma efScan_match_core {m u v : Str} (hok : efCoreOk m = true) (hm : m ≠ [])
    (hnlm : NLFree m) (hu : AllWS u) (hu0 : u = [] ∨ ∃ u2, u = '\n' :: u2)
    (hv1 : NLFree (v.takeWhile isWS)) (hv2 : v.takeWhile isWS ≠ v) :
    reScan efTry 0 (m ++ (u ++ '\n' :: v)) = (m ++ u) :: reScan efTry 0 v := by
  have hXsh : ∃ t, u ++ '\n' :: v = '\n' :: t := by
    rcases hu0 with rfl | ⟨u2, rfl⟩
    · exact ⟨v, rfl⟩
    · exact ⟨u2 ++ '\n' :: v, rfl⟩
  have hW : (u ++ '\n' :: v).takeWhile isWS = u ++ '\n' :: v.takeWhile isWS := by
    rw [takeWhile_all_append _ (fun c hc => hu c hc), List.takeWhile_cons]
    rfl
  have hlen2 : (u ++ '\n' :: v.takeWhile isWS).length ≠ (u ++ '\n' :: v).length := by
    simp only [List.length_append, List.length_cons]
    intro heq
    have hle : (v.takeWhile isWS).length = v.length := by omega
    exact hv2 ((List.takeWhile_prefix _).eq_of_length hle)
  have hml : efMatchLen (m ++ (u ++ '\n' :: v)) = m.length + u.length := by
    rw [efMatchLen_eq, lineTail_append_of_shape hnlm (Or.inr hXsh), List.drop_left, hW,
      if_neg hlen2, lastNLIdx_append hv1]
  cases m with
  | nil => exact absurd rfl hm
  | cons c cs =>
    have htry0 := efTry_pos (m := c :: cs) (X := u ++ '\n' :: v) hok hnlm (Or.inr hXsh)
    rw [hml] at htry0
    have htry : efTry (c :: (cs ++ (u ++ '\n' :: v))) = some ((c :: cs).length + u.length) := by
      simpa using htry0
    have hstep := reScan_cons_some htry (by simp only [List.length_cons]; omega)
    have hassoc : c :: (cs ++ (u ++ '\n' :: v)) = ((c :: cs) ++ u) ++ '\n' :: v := by
      simp
    have htake : (c :: (cs ++ (u ++ '\n' :: v))).take ((c :: cs).length + u.length) =
        (c :: cs) ++ u := by
      rw [hassoc, ← List.length_append, List.take_left]
    have hdrop : (c :: (cs ++ (u ++ '\n' :: v))).drop ((c :: cs).length + u.length) =
        '\n' :: v := by
      rw [hassoc, ← List.length_append, List.drop_left]
    rw [List.cons_append, hstep, htake, hdrop, efScan_newline]

lemma efScan_joinLines : ∀ (N : Nat) (ls : List Str), ls.length ≤ N →
    (∀ ℓ ∈ ls, NLFree ℓ) → reScan efTry 0 (joinLines ls) = perLineEF ls := by
  intro N
  induction N with
  | zero =>
    intro ls hlen _
    rw [List.length_eq_zero.mp (Nat.le_zero.mp hlen)]
    rfl
  | succ N ih =>
    intro ls hlen hnl
    cases ls with
    | nil => rfl
    | cons ℓ rest =>
      cases rest with
      | nil =>
        rw [joinLines]
        have hsc := efScan_line ℓ [] (hnl ℓ (by simp)) (Or.inl rfl)
        cases hm : lineEFMatch ℓ with
        | none =>
          have h1 := hsc.1 hm
          rw [List.append_nil] at h1
          rw [h1, perLineEF, hm]
          rfl
        | some m =>
          obtain ⟨h1, hok, hmne⟩ := hsc.2 m hm
          simp only [List.append_nil] at h1
          have hnlm : NLFree m := fun c hc =>
            hnl ℓ (by simp) c ((lineEFMatch_suffix hm).sublist.subset hc)
          have h2 := efScan_match_all (Y := []) hok hmne hnlm
            (by intro c hc; simp at hc) (Or.inl rfl)
          simp only [List.append_nil] at h2
          have hr : perLineEF [ℓ] = [m ++ glueNL []] := by
            rw [perLineEF, hm]
            rfl
          rw [h1, h2, hr]
          simp [glueNL]
      | cons ℓ1 rest2 =>
        rw [joinLines_cons, if_neg (by simp)]
        have hsc := efScan_line ℓ ('\n' :: joinLines (ℓ1 :: rest2)) (hnl ℓ (by simp))
          (Or.inr ⟨_, rfl⟩)
        cases hm : lineEFMatch ℓ with
        | none =>
          rw [hsc.1 hm, efScan_newline]
          have hih := ih (ℓ1 :: rest2) (by simp only [List.length_cons] at hlen ⊢; omega)
            (fun x hx => hnl x (by simp [hx]))
          have hr : perLineEF (ℓ :: ℓ1 :: rest2) = perLineEF (ℓ1 :: rest2) := by
            rw [perLineEF, hm]
          rw [hih, hr]
        | some m =>
          obtain ⟨h1, hok, hmne⟩ := hsc.2 m hm
          have hnlm : NLFree m := fun c hc =>
            hnl ℓ (by simp) c ((lineEFMatch_suffix hm).sublist.subset hc)
          rw [h1]
          have hsplit : (ℓ1 :: rest2).takeWhile (fun b => b.all isWS) ++
              (ℓ1 :: rest2).dropWhile (fun b => b.all isWS) = ℓ1 :: rest2 :=
            List.takeWhile_append_dropWhile _ _
          have hbsWS : ∀ b ∈ (ℓ1 :: rest2).takeWhile (fun b => b.all isWS), AllWS b := by
            intro b hb c hc
            have hb2 := List.mem_takeWhile_imp hb
            exact (List.all_eq_true.mp (by simpa using hb2)) c hc
          cases hdw : (ℓ1 :: rest2).dropWhile (fun b => b.all isWS) with
          | nil =>
            have hallb : ∀ b ∈ (ℓ1 :: rest2), AllWS b := by
              intro b hb c hc
              have h3 := List.dropWhile_eq_nil_iff.mp hdw b hb
              exact (List.all_eq_true.mp (by simpa using h3)) c hc
            have hY : AllWS ('\n' :: joinLines (ℓ1 :: rest2)) := by
              intro c hc
              rcases List.mem_cons.mp hc with rfl | hc2
              · decide
              · exact joinLines_allWS hallb c hc2
            have h2 := efScan_match_all hok hmne hnlm hY (Or.inr ⟨_, rfl⟩)
            have htwall : (ℓ1 :: rest2).takeWhile (fun b => b.all isWS) = ℓ1 :: rest2 := by
              rw [hdw, List.append_nil] at hsplit
              exact hsplit
            have hplb : perLineEF (ℓ1 :: rest2) = [] := by
              have h5 := perLineEF_blanks (ℓ1 :: rest2) [] hallb
              simpa using h5
            have hr : perLineEF (ℓ :: ℓ1 :: rest2) =
                [m ++ glueNL ((ℓ1 :: rest2).takeWhile (fun b => b.all isWS))] := by
              rw [perLineEF, hm, hplb]
            rw [h2, hr, htwall, glueNL_eq_cons_joinLines (by simp)]
          | cons ℓ2 ls2 =>
            have h4 : ℓ1 :: rest2 =
                (ℓ1 :: rest2).takeWhile (fun b => b.all isWS) ++ ℓ2 :: ls2 := by
              conv_lhs => rw [← hsplit, hdw]
            have hl2nb : ℓ2.all isWS = false := by
              have h6 := List.head?_dropWhile_not (fun b => b.all isWS) (ℓ1 :: rest2)
              rw [hdw] at h6
              simpa using h6
            have hl2ex : ∃ c ∈ ℓ2, isWS c = false := by
              obtain ⟨c, hc, hf⟩ := List.all_eq_false.mp hl2nb
              exact ⟨c, hc, by simpa using hf⟩
            have hmemtail : ∀ x ∈ ℓ2 :: ls2, x ∈ ℓ1 :: rest2 := by
              intro x hx
              rw [h4]
              exact List.mem_append.mpr (Or.inr hx)
            have hnlℓ2 : NLFree ℓ2 := hnl ℓ2 (by simp [hmemtail ℓ2 (by simp)])
            have hdecomp : '\n' :: joinLines (ℓ1 :: rest2) =
                glueNL ((ℓ1 :: rest2).takeWhile (fun b => b.all isWS)) ++
                  '\n' :: joinLines (ℓ2 :: ls2) := by
              conv_lhs => rw [h4]
              exact glue_decomp _ _ (by simp)
            have hTW : (joinLines (ℓ2 :: ls2)).takeWhile isWS = ℓ2.takeWhile isWS := by
              rw [joinLines_cons]
              exact takeWhile_stop _ hl2ex
            have hv1 : NLFree ((joinLines (ℓ2 :: ls2)).takeWhile isWS) := by
              rw [hTW]
              intro c hc
              exact hnlℓ2 c ((List.takeWhile_prefix _).sublist.subset hc)
            have hv2 : (joinLines (ℓ2 :: ls2)).takeWhile isWS ≠ joinLines (ℓ2 :: ls2) := by
              rw [hTW]
              intro heq
              have hd2 : ℓ2.dropWhile isWS ≠ [] := by
                intro h0
                obtain ⟨c, hc, hf⟩ := hl2ex
                have h7 := List.dropWhile_eq_nil_iff.mp h0 c hc
                rw [hf] at h7
                cases h7
              have hts := congrArg List.length
                (List.takeWhile_append_dropWhile (p := isWS) (l := ℓ2))
              rw [List.length_append] at hts
              have hpos : 0 < (ℓ2.dropWhile isWS).length := List.length_pos.mpr hd2
              have hlen2 : ℓ2.length ≤ (joinLines (ℓ2 :: ls2)).length := by
                rw [joinLines_cons, List.length_append]
                omega
              have hlen3 := congrArg List.length heq
              omega
            have huWS : AllWS (glueNL ((ℓ1 :: rest2).takeWhile (fun b => b.all isWS))) :=
              glueNL_allWS hbsWS
            have hu0 : glueNL ((ℓ1 :: rest2).takeWhile (fun b => b.all isWS)) = [] ∨
                ∃ u2, glueNL ((ℓ1 :: rest2).takeWhile (fun b => b.all isWS)) = '\n' :: u2 := by
              cases hbs0 : (ℓ1 :: rest2).takeWhile (fun b => b.all isWS) with
              | nil => exact Or.inl rfl
              | cons b bs2 => exact Or.inr ⟨b ++ glueNL bs2, by rw [glueNL_cons]⟩
            have hcore := efScan_match_core hok hmne hnlm huWS hu0 hv1 hv2
            have hlentail : (ℓ2 :: ls2).length ≤ N := by
              have hsub : (ℓ2 :: ls2).length ≤ (ℓ1 :: rest2).length := by
                have h8 := congrArg List.length h4
                rw [List.length_append] at h8
                omega
              simp only [List.length_cons] at hlen hsub ⊢
              omega
            have hih := ih (ℓ2 :: ls2) hlentail
              (fun x hx => hnl x (by simp [hmemtail x hx]))
            have hpl : perLineEF (ℓ1 :: rest2) = perLineEF (ℓ2 :: ls2) := by
              conv_lhs => rw [h4]
              exact perLineEF_blanks _ _ hbsWS
            have hr : perLineEF (ℓ :: ℓ1 :: rest2) =
                (m ++ glueNL ((ℓ1 :: rest2).takeWhile (fun b => b.all isWS))) ::
                  perLineEF (ℓ2 :: ls2) := by
              rw [perLineEF, hm, hpl]
            rw [hdecomp, hcore, hih, hr]

lemma findallEF_eq_perLineEF (d : Str) : findallEF d = perLineEF (splitLines d) := by
  have h := efScan_joinLines (splitLines d).length (splitLines d) le_rfl (splitLines_nlFree d)
  rw [joinLines_splitLines] at h
  exact h

lemma perLineEF_length : ∀ ls : List Str,
    (perLineEF ls).length = ls.countP (fun ℓ => (lineEFMatch ℓ).isSome) := by
  intro ls
  induction ls with
  | nil => rfl
  | cons ℓ rest ih =>
    rw [List.countP_cons]
    cases hm : lineEFMatch ℓ with
    | none =>
      have h1 : perLineEF (ℓ :: rest) = perLineEF rest := by
        rw [perLineEF, hm]
      rw [h1, ih]
      simp
    | some m =>
      have h1 : perLineEF (ℓ :: rest) =
          (m ++ glueNL (rest.takeWhile (fun b => b.all isWS))) :: perLineEF rest := by
        rw [perLineEF, hm]
      rw [h1, List.length_cons, ih]
      simp

/-- C6 (amended): `check_empty_fields` appends, for each line that
contains (at its leftmost position) a field pattern whose in-line
remainder after the required colon is whitespace-only, exactly one
`missing-description-error` — except when the match starts with
`:meta`, which is skipped.  The diagnostic's detail is the regex
match: the matched suffix of the line, extended by the greedy `\s*`
across any immediately following all-whitespace lines (so it can carry
trailing whitespace and newlines and need not equal the field line).
A field line recognised at column zero is matched in full. -/
theorem c6_empty_fields (d : Str) (errs : List Str) :
    (check_empty_fields d errs =
        errs ++ ((perLineEF (splitLines d)).filter
            (fun line => ¬ (str ":meta").isPrefixOf line)).map
          (fun line => str "missing-description-error: " ++ line)) ∧
      ((perLineEF (splitLines d)).length =
        (splitLines d).countP (fun ℓ => (lineEFMatch ℓ).isSome)) ∧
      (∀ ℓ : Str, efCoreOk ℓ = true → lineEFMatch ℓ = some ℓ) := by
  refine ⟨?_, perLineEF_length (splitLines d), ?_⟩
  · rw [check_empty_fields_eq, emptyFieldsExtra, findallEF_eq_perLineEF]
  · intro ℓ hok
    cases ℓ with
    | nil => rw [efCoreOk_nil] at hok; cases hok
    | cons c cs => rw [lineEFMatch, if_pos hok]

/-- Counterexample to C6 as stated: on `":returns:\n\nText"` the empty
`:returns:` field yields exactly one diagnostic, but its detail is
`":returns:\n"` — the regex match swallows the newline before the blank
line — not the matched line `":returns:"`. -/
theorem c6_counterexample :
    check_empty_fields (str ":returns:\n\nText") [] =
        [str "missing-description-error: :returns:\n"] ∧
      splitLines (str ":returns:\n\nText") = [str ":returns:", [], str "Text"] := ⟨rfl, rfl⟩

/-- Closed instance of C6 (amended): one empty `param` field is
reported once; the empty `meta` field is exempt. -/
theorem c6_witness :
    check_empty_fields (str "Title.\n\n:param a:\n:meta private:") [] =
      [str "missing-description-error: :param a:"] := by
  rw [(c6_empty_fields (str "Title.\n\n:param a:\n:meta private:") []).1]
  rfl

end SphinxContent
